import Mathlib

/-!
Shallow embedding of the market-data acquisition and valuation engine of the
`portfolio_tracker` backend (`src/backend/app/services/{portfolio,market_data,price_cache}.py`
and `src/backend/test_trade_logic.py`), together with theorems settling the
frozen claims about it.

Conventions of the embedding:
* Python `float` prices and amounts are modelled as exact rationals (`ℚ`).
* Calendar dates / datetimes at day granularity are modelled as integers
  (a day number); `datetime.now()` and similar become explicit parameters.
* Python `dict` (insertion ordered, unique keys) is modelled as an
  association list where assignment overwrites in place and inserts at the
  end (`dictInsert` below).
* External effects (Yahoo Finance, the SQL price store, `time.sleep`) are
  modelled as explicit oracle functions / explicit state threading, and the
  calls made to them are recorded in the result so that claims about *which*
  calls happen are statable.
* The repository stores the cost of a holding in a column that recent
  snapshots call `starting_price` and an older model calls
  `initial_investment` (`schemas.py`: `starting_price: float # Renamed from
  initial_investment`).  Both attribute names denote the same quantity (the
  spec's `cost_basis`), so the embedded `Holding` carries a single field
  `starting_price`, and `portfolio.py` line 35 (`holding.initial_investment`)
  is embedded through that same field.
-/

/-! ## Basic date and dict utilities -/

/-- The inclusive calendar-day range `start_day .. end_day`, ascending.
Mirrors the `while current <= end_date` date-generation loop of
`price_cache.find_missing_dates` (empty when `start_day > end_day`). -/
def dateRange (start_day end_day : ℤ) : List ℤ :=
  (List.range (end_day + 1 - start_day).toNat).map (fun i : ℕ => start_day + (i : ℤ))

/-- Python `dict` assignment `m[k] = v` on an insertion-ordered association
list (keys unique by construction): overwrite in place if the key is
present, else append at the end. -/
def dictInsert {α : Type} : List (ℤ × α) → ℤ → α → List (ℤ × α)
  | [], k, v => [(k, v)]
  | p :: m, k, v => if p.1 = k then (k, v) :: m else p :: dictInsert m k v

/-- Same as `dictInsert` for string-keyed dicts. -/
def dictInsertS {α : Type} : List (String × α) → String → α → List (String × α)
  | [], k, v => [(k, v)]
  | p :: m, k, v => if p.1 = k then (k, v) :: m else p :: dictInsertS m k v

theorem dateRange_mem {s e d : ℤ} : d ∈ dateRange s e ↔ s ≤ d ∧ d ≤ e := by
  unfold dateRange
  rw [List.mem_map]
  have hmax : ((e + 1 - s).toNat : ℤ) = max (e + 1 - s) 0 := Int.toNat_eq_max _
  constructor
  · rintro ⟨i, hi, rfl⟩
    rw [List.mem_range] at hi
    have h2 : ((i : ℤ)) < ((e + 1 - s).toNat : ℤ) := by exact_mod_cast hi
    omega
  · intro h
    refine ⟨(d - s).toNat, ?_, ?_⟩
    · rw [List.mem_range]
      have h4 : ((d - s).toNat : ℤ) = d - s := Int.toNat_of_nonneg (by omega)
      have h5 : ((d - s).toNat : ℤ) < ((e + 1 - s).toNat : ℤ) := by omega
      exact_mod_cast h5
    · have h4 : ((d - s).toNat : ℤ) = d - s := Int.toNat_of_nonneg (by omega)
      omega

/-! ## Data model (`app/models/database.py`, `app/schemas.py`) -/

/-- `AssetType` enum of `database.py`. -/
inductive AssetType
  | stock
  | crypto
  | etf
  | commodities
  | bonds
deriving DecidableEq

/-- The `.value` of the Python string enum. -/
def AssetType.value : AssetType → String
  | .stock => "stock"
  | .crypto => "crypto"
  | .etf => "etf"
  | .commodities => "commodities"
  | .bonds => "bonds"

/-- `TradeType` enum (`database.py` and `test_trade_logic.py`). -/
inductive TradeType
  | buy
  | sell
deriving DecidableEq

/-- A holding row as the services consume it.  `starting_price` is the cost
of the holding (named `initial_investment` in the older model snapshot; the
two names denote the same column, see the header comment).  `trade_type` is
the column added by migration `d123456789ab`. -/
structure Holding where
  id : String
  portfolio_id : String
  ticker : String
  starting_price : ℚ
  purchase_date : ℤ
  asset_type : AssetType
  trade_type : TradeType
  last_updated : ℤ
deriving DecidableEq

/-! ## `test_trade_logic.calculate_percentage_change` -/

/-- `calculate_percentage_change` of `src/backend/test_trade_logic.py`
(lines 9-28): zero guard on `initial_price`, base percentage change,
negated for SELL trades. -/
def calculate_percentage_change (initial_price current_price : ℚ)
    (trade_type : TradeType) : ℚ :=
  if initial_price = 0 then 0
  else
    let percentage_change := ((current_price - initial_price) / initial_price) * 100
    if trade_type = TradeType.sell then -percentage_change else percentage_change

/-! ## `compute_unrealised_gain` (spec-modelled) -/

/-- Result record of `compute_unrealised_gain`. -/
structure UnrealisedGainResult where
  position_value : ℚ
  cost_basis : ℚ
  unrealised_gain : ℚ
deriving DecidableEq

/-- Modelled from the spec: `compute_unrealised_gain` is imported from
`app.services.portfolio` by `src/backend/app/tests/test_gains.py`, but no
implementation of it is present under `src/` (only that test references it).
Following the spec's testable property 3, it maps `(quantity, avg_cost,
current_price)` to `position_value = quantity * current_price`,
`cost_basis = quantity * avg_cost` and
`unrealised_gain = position_value - cost_basis`. -/
def compute_unrealised_gain (quantity avg_cost current_price : ℚ) :
    UnrealisedGainResult :=
  { position_value := quantity * current_price
    cost_basis := quantity * avg_cost
    unrealised_gain := quantity * current_price - quantity * avg_cost }

/-! ## Price store (`app/services/price_cache.py` over the `price_cache` table) -/

/-- One persisted `(ticker, date) -> close price, volume` observation
(a `PriceCache` row of `database.py`). -/
structure PriceObs where
  ticker : String
  date : ℤ
  close_price : ℚ
  volume : Option ℤ
deriving DecidableEq

/-- The durable price store: the list of persisted rows.  `store_price`
keeps `(ticker, date)` unique, matching the table's unique constraint. -/
abbrev PriceStore := List PriceObs

/-- `get_cached_price` (price_cache.py lines 20-59): the close price of the
first row matching the ticker on the given day, if any. -/
def get_cached_price (db : PriceStore) (ticker : String) (target_date : ℤ) :
    Option ℚ :=
  ((db.filter (fun r => r.ticker == ticker && r.date == target_date)).head?).map
    (fun r => r.close_price)

/-- `get_cached_price_range` (lines 61-111): the `date -> close` dict of the
rows for `ticker` with date in `[start_date, end_date]`.  The SQL query
returns those rows ordered by date; enumerating the calendar range and
looking each day up is the same map given the `(ticker, date)` uniqueness. -/
def get_cached_price_range (db : PriceStore) (ticker : String)
    (start_date end_date : ℤ) : List (ℤ × ℚ) :=
  (dateRange start_date end_date).filterMap
    (fun d => (get_cached_price db ticker d).map (fun p => (d, p)))

/-- `store_price` (lines 113-179): upsert of one observation; an existing
`(ticker, date)` row gets its close price overwritten (and its volume, when
one is supplied), otherwise a new row is appended. -/
def store_price (db : PriceStore) (ticker : String) (price_date : ℤ)
    (close_price : ℚ) (volume : Option ℤ) : PriceStore :=
  if db.any (fun r => r.ticker == ticker && r.date == price_date) then
    db.map (fun r =>
      if r.ticker == ticker && r.date == price_date then
        { r with
            close_price := close_price
            volume := match volume with | some v => some v | none => r.volume }
      else r)
  else db ++ [{ ticker := ticker, date := price_date,
                close_price := close_price, volume := volume }]

/-- A price record returned by the external fetcher
(`market_data.get_historical_prices` row: date, close, volume). -/
structure FetchedObs where
  date : ℤ
  close : ℚ
  volume : Option ℤ
deriving DecidableEq

/-- `store_bulk_prices` (lines 181-222): `store_price` for each record. -/
def store_bulk_prices (db : PriceStore) (ticker : String)
    (prices : List FetchedObs) : PriceStore :=
  prices.foldl (fun acc p => store_price acc ticker p.date p.close p.volume) db

/-- `find_missing_dates` (lines 224-259): every calendar day of the range
that has no key in the cached range map. -/
def find_missing_dates (db : PriceStore) (ticker : String)
    (start_date end_date : ℤ) : List ℤ :=
  let cached := get_cached_price_range db ticker start_date end_date
  (dateRange start_date end_date).filter (fun d => !(cached.lookup d).isSome)

/-! ## In-memory TTL cache (`market_data.py` lines 30-54) -/

/-- One `_memory_cache` entry: `{'data': ..., 'timestamp': ...}`. -/
structure CacheEntry (α : Type) where
  data : α
  timestamp : ℤ
deriving DecidableEq

/-- The `_memory_cache` dict of one bucket, keyed by the cache-key string. -/
abbrev MemCache (α : Type) := List (String × CacheEntry α)

/-- `_get_from_memory_cache` (lines 30-41): on a present, unexpired key
(`now - timestamp < ttl`) return the data and leave the cache unchanged; on a
present but expired key delete the entry (`del self._memory_cache[key]`) and
return `None`; on an absent key return `None`. -/
def getFromMemoryCache {α : Type} (cache : MemCache α) (now : ℤ) (key : String)
    (ttl : ℤ) : Option α × MemCache α :=
  match cache.lookup key with
  | some entry =>
      if now - entry.timestamp < ttl then (some entry.data, cache)
      else (none, cache.filter (fun p => p.1 != key))
  | none => (none, cache)

/-- `_set_memory_cache` (lines 43-49): dict assignment of
`{'data': data, 'timestamp': now}` under the key. -/
def setMemoryCache {α : Type} (cache : MemCache α) (now : ℤ) (key : String)
    (data : α) : MemCache α :=
  dictInsertS cache key { data := data, timestamp := now }

/-! ## Provider fetch loop (`market_data.get_current_price`, lines 80-124) -/

/-- One provider attempt's outcome: a non-empty frame whose last close is the
price, an empty frame, or a raised exception. -/
inductive FetchOutcome
  | success (price : ℚ)
  | empty
  | failure
deriving DecidableEq

/-- The price a provider outcome delivers, if any: an empty frame and a
raised exception both deliver none. -/
def FetchOutcome.successPrice : FetchOutcome → Option ℚ
  | .success p => some p
  | .empty => none
  | .failure => none

/-- The result of the layer-3 retry loop: the returned price (if any), the
number of provider attempts actually made, and the list of back-off sleeps
performed (in order). -/
structure FetchLoopResult where
  price : Option ℚ
  attempts : ℕ
  delays : List ℚ
deriving DecidableEq

/-- The body of `for attempt in range(self.max_retries)` (lines 80-124),
recursing over the list of remaining attempt indices.  Before every attempt
with `attempt > 0` the loop sleeps `base_delay * 2 ** attempt`; a non-empty
response returns its price at once; an empty response or an exception on the
final attempt returns `None`; otherwise the loop continues. -/
def fetchLoopAux (provider : ℕ → FetchOutcome) (base_delay : ℚ) :
    List ℕ → FetchLoopResult
  | [] => { price := none, attempts := 0, delays := [] }
  | attempt :: rest =>
      let ds : List ℚ := if attempt > 0 then [base_delay * 2 ^ attempt] else []
      match provider attempt with
      | .success p => { price := some p, attempts := 1, delays := ds }
      | _ =>
          match rest with
          | [] => { price := none, attempts := 1, delays := ds }
          | _ :: _ =>
              let r := fetchLoopAux provider base_delay rest
              { price := r.price, attempts := r.attempts + 1, delays := ds ++ r.delays }

/-- The whole layer-3 fetch of `get_current_price`: the retry loop over
attempt indices `0 .. max_retries - 1`. -/
def fetchWithRetry (provider : ℕ → FetchOutcome) (max_retries : ℕ)
    (base_delay : ℚ) : FetchLoopResult :=
  fetchLoopAux provider base_delay (List.range max_retries)

/-! ## `get_current_price` (lines 56-124) -/

/-- The observable result of one `get_current_price` call: the price (or
`None`), the memory cache afterwards, and how many provider attempts the
call made. -/
structure CurrentPriceResult where
  price : Option ℚ
  cache : MemCache ℚ
  attempts : ℕ
  delays : List ℚ
deriving DecidableEq

/-- `get_current_price`: layer 1 is the in-memory TTL cache under key
`"current_price:" ++ ticker`; layer 2 is the database cache for today
(passed in resolved, as `db_price`); layer 3 is the provider retry loop.  A
hit at layers 2 or 3 is written back to the memory cache.  (The database
write-through and the fire-and-forget websocket broadcast of the success
path touch no state modelled here.) -/
def get_current_price (ticker : String) (cache : MemCache ℚ) (now : ℤ)
    (ttl : ℤ) (db_price : Option ℚ) (provider : ℕ → FetchOutcome)
    (max_retries : ℕ) (base_delay : ℚ) : CurrentPriceResult :=
  let key := "current_price:" ++ ticker
  match getFromMemoryCache cache now key ttl with
  | (some p, c) => { price := some p, cache := c, attempts := 0, delays := [] }
  | (none, c) =>
      match db_price with
      | some p =>
          { price := some p, cache := setMemoryCache c now key p,
            attempts := 0, delays := [] }
      | none =>
          let r := fetchWithRetry provider max_retries base_delay
          match r.price with
          | some p =>
              { price := some p, cache := setMemoryCache c now key p,
                attempts := r.attempts, delays := r.delays }
          | none =>
              { price := none, cache := c, attempts := r.attempts, delays := r.delays }

/-! ## `get_multiple_prices` (lines 223-242) -/

/-- `get_multiple_prices`: one `get_current_price` per ticker in order,
keeping only the tickers whose lookup returned a price.  The per-call cache
dynamics are irrelevant to the result dict's shape, so the lookup is passed
as the resolving function `getPrice`. -/
def get_multiple_prices (getPrice : String → Option ℚ) (tickers : List String) :
    List (String × ℚ) :=
  tickers.foldl
    (fun prices ticker =>
      match getPrice ticker with
      | some price => dictInsertS prices ticker price
      | none => prices)
    []

/-! ## `get_historical_prices_series` (lines 312-363) -/

/-- The observable result of `get_historical_prices_series`: the returned
`date -> price` map, the price store afterwards, and the range the external
fetcher was asked for (`none` when no fetch happened). -/
structure SeriesResult where
  series : List (ℤ × ℚ)
  store : PriceStore
  fetchRequest : Option (ℤ × ℤ)
deriving DecidableEq

/-- `get_historical_prices_series`: read the cached range map, compute the
missing dates; if any are missing, call `get_historical_prices` for the
*whole* requested range (the `fetch` oracle, returning `None` after
exhausted retries or an empty frame), bulk-store whatever came back, and
overlay it on the cached map; with nothing missing, return the cached map
with no fetch. -/
def get_historical_prices_series (db : PriceStore) (ticker : String)
    (start_date end_date : ℤ) (fetch : ℤ → ℤ → Option (List FetchedObs)) :
    SeriesResult :=
  let cached := get_cached_price_range db ticker start_date end_date
  let missing := find_missing_dates db ticker start_date end_date
  if missing.length > 0 then
    match fetch start_date end_date with
    | some fresh =>
        if fresh.length > 0 then
          { series := fresh.foldl (fun m p => dictInsert m p.date p.close) cached
            store := store_bulk_prices db ticker fresh
            fetchRequest := some (start_date, end_date) }
        else { series := cached, store := db, fetchRequest := some (start_date, end_date) }
    | none => { series := cached, store := db, fetchRequest := some (start_date, end_date) }
  else { series := cached, store := db, fetchRequest := none }

/-! ## Valuation engine (`app/services/portfolio.py`, `compute_portfolio_summary`) -/

/-- The market-data lookups `compute_portfolio_summary` performs, passed as
resolving oracles: `get_current_price`, `get_price_at_date`,
`get_asset_name`. -/
structure MarketOracle where
  currentPrice : String → Option ℚ
  priceAtDate : String → ℤ → Option ℚ
  assetName : String → String

/-- The per-holding valuation of `compute_portfolio_summary` (portfolio.py
lines 28-101), as the pair `(percentage_change, current_value)`:
* no current price (line 30): `(0, cost)`;
* purchase-date price absent or zero (line 96): `(0, cost)`;
* otherwise (lines 100-101): the ratio formula, and
  `cost * (1 + percentage_change / 100)`. -/
def holdingValuation (m : MarketOracle) (h : Holding) : ℚ × ℚ :=
  match m.currentPrice h.ticker with
  | none => (0, h.starting_price)
  | some current_price =>
      match m.priceAtDate h.ticker h.purchase_date with
      | none => (0, h.starting_price)
      | some initial_price_per_unit =>
          if initial_price_per_unit = 0 then (0, h.starting_price)
          else
            let percentage_change :=
              ((current_price - initial_price_per_unit) / initial_price_per_unit) * 100
            (percentage_change, h.starting_price * (1 + percentage_change / 100))

/-- The response row appended for one holding (lines 110-123).  The
`asset_info` sub-object is flattened into its two fields. -/
structure HoldingCalculatedResponse where
  id : String
  portfolio_id : String
  ticker : String
  starting_price : ℚ
  purchase_date : ℤ
  asset_type : AssetType
  last_updated : ℤ
  current_price : Option ℚ
  percentage_change : ℚ
  asset_name : String
  asset_type_str : String
deriving DecidableEq

/-- The row `compute_portfolio_summary` appends for a holding. -/
def mkCalculatedHolding (m : MarketOracle) (h : Holding) :
    HoldingCalculatedResponse :=
  { id := h.id
    portfolio_id := h.portfolio_id
    ticker := h.ticker
    starting_price := h.starting_price
    purchase_date := h.purchase_date
    asset_type := h.asset_type
    last_updated := h.last_updated
    current_price := m.currentPrice h.ticker
    percentage_change := (holdingValuation m h).1
    asset_name := m.assetName h.ticker
    asset_type_str := h.asset_type.value }

/-- One allocation dict value: `{'name', 'value', 'type'}` (lines 129-133). -/
structure AllocationItem where
  name : String
  value : ℚ
  type_str : String
deriving DecidableEq

/-- The allocation-map update of lines 126-133: add the holding's current
value onto an existing ticker entry (in-place dict write), or store a fresh
entry under the new ticker key (appended, in dict insertion order). -/
def allocUpdate (mp : List (String × AllocationItem)) (h : Holding)
    (asset_name : String) (current_value : ℚ) : List (String × AllocationItem) :=
  match mp.lookup h.ticker with
  | some entry =>
      dictInsertS mp h.ticker { entry with value := entry.value + current_value }
  | none =>
      dictInsertS mp h.ticker
        { name := asset_name, value := current_value, type_str := h.asset_type.value }

/-- The loop state of `compute_portfolio_summary`: the two running totals,
the response rows so far, and the allocation dict. -/
structure SummaryAcc where
  total_current_value : ℚ
  total_initial_investment : ℚ
  calculated_holdings : List HoldingCalculatedResponse
  allocation_map : List (String × AllocationItem)

/-- One iteration of the `for holding in holdings` loop (lines 27-133). -/
def summaryStep (m : MarketOracle) (acc : SummaryAcc) (h : Holding) : SummaryAcc :=
  let v := holdingValuation m h
  { total_current_value := acc.total_current_value + v.2
    total_initial_investment := acc.total_initial_investment + h.starting_price
    calculated_holdings := acc.calculated_holdings ++ [mkCalculatedHolding m h]
    allocation_map := allocUpdate acc.allocation_map h (m.assetName h.ticker) v.2 }

/-- Stable descending insertion: the new element goes after every existing
element whose value is at least as large.  Inserting the elements of a list
in order with this reproduces Python's stable
`sorted(key=value, reverse=True)` (line 135). -/
def insertValueDesc (x : AllocationItem) : List AllocationItem → List AllocationItem
  | [] => [x]
  | y :: ys => if x.value ≤ y.value then y :: insertValueDesc x ys else x :: y :: ys

/-- `sorted(allocation_map.values(), key=value, reverse=True)`, stable. -/
def sortValueDesc (l : List AllocationItem) : List AllocationItem :=
  l.foldl (fun acc x => insertValueDesc x acc) []

/-- The summary dict returned by `compute_portfolio_summary` (lines 139-145). -/
structure PortfolioSummary where
  portfolio_id : String
  total_current_value : ℚ
  total_percentage_change : ℚ
  holdings : List HoldingCalculatedResponse
  allocation : List AllocationItem

/-- `compute_portfolio_summary` (portfolio.py lines 11-145). -/
def compute_portfolio_summary (m : MarketOracle) (holdings : List Holding) :
    PortfolioSummary :=
  let acc := holdings.foldl (summaryStep m)
    { total_current_value := 0, total_initial_investment := 0,
      calculated_holdings := [], allocation_map := [] }
  { portfolio_id := match holdings with | [] => "" | h :: _ => h.portfolio_id
    total_current_value := acc.total_current_value
    total_percentage_change :=
      if acc.total_initial_investment > 0 then
        ((acc.total_current_value - acc.total_initial_investment) /
          acc.total_initial_investment) * 100
      else 0
    holdings := acc.calculated_holdings
    allocation := sortValueDesc (acc.allocation_map.map (fun p => p.2)) }

/-! ## Daily history builder (`portfolio.py`, `get_portfolio_history`, lines 147-256) -/

/-- Python truthiness of an optional price: `0.0` and `None` are both falsy
(`if price:` / `if h_data["base_price"]:`). -/
def truthyQ : Option ℚ → Option ℚ
  | some p => if p = 0 then none else some p
  | none => none

/-- The minimal key of a `date -> price` dict (`sorted(prices.keys())[0]`). -/
def minKey : List (ℤ × ℚ) → Option ℤ
  | [] => none
  | p :: ps => some (ps.foldl (fun a q => min a q.1) p.1)

/-- `base_price` of one holding (lines 182-185): the price at the first
(minimal) date of its fetched series, when the series is non-empty. -/
def firstAvailablePrice (prices : List (ℤ × ℚ)) : Option ℚ :=
  (minKey prices).bind (fun d => prices.lookup d)

/-- One `holding_histories[holding.id]` record (without the mutable
`last_known_val`, which is threaded separately through the day loop). -/
structure HoldingHistory where
  prices : List (ℤ × ℚ)
  base_price : Option ℚ
deriving DecidableEq

/-- The `holding_histories` dict (lines 171-185), keyed by holding id;
`histFor h` is the series `get_historical_prices_series` resolves for the
holding's ticker from its purchase date. -/
def buildHistories (histFor : Holding → List (ℤ × ℚ)) (holdings : List Holding) :
    List (String × HoldingHistory) :=
  holdings.foldl
    (fun acc h =>
      let prices := histFor h
      dictInsertS acc h.id
        { prices := prices, base_price := firstAvailablePrice prices })
    []

/-- The within-day loop state: the running `daily_total_value`, the
`has_data` flag, and the `last_known_val` entries keyed by holding id. -/
structure DayAcc where
  daily_total_value : ℚ
  has_data : Bool
  lastKnown : List (String × ℚ)
deriving DecidableEq

/-- One iteration of the inner `for holding in holdings` loop of a single
day (lines 205-219): a holding purchased on or before the day whose history
has a truthy base price contributes `starting_price * (price_t / base)` when
the day's price is truthy (recording it as `last_known_val`), else its
recorded `last_known_val`, if it has one. -/
def dayHoldingStep (hh : List (String × HoldingHistory)) (d : ℤ)
    (acc : DayAcc) (h : Holding) : DayAcc :=
  if h.purchase_date ≤ d then
    match hh.lookup h.id with
    | some h_data =>
        match truthyQ h_data.base_price with
        | some base =>
            match truthyQ (h_data.prices.lookup d) with
            | some price =>
                let val := h.starting_price * (price / base)
                { daily_total_value := acc.daily_total_value + val
                  has_data := true
                  lastKnown := dictInsertS acc.lastKnown h.id val }
            | none =>
                match acc.lastKnown.lookup h.id with
                | some lv =>
                    { acc with
                        daily_total_value := acc.daily_total_value + lv
                        has_data := true }
                | none => acc
        | none => acc
    | none => acc
  else acc

/-- Round half to even (Python's `round` tie-breaking; the claims settled
here do not depend on ties, nor on binary-float representation error). -/
def roundHalfEven (q : ℚ) : ℤ :=
  if q - ⌊q⌋ < 1/2 then ⌊q⌋
  else if (1:ℚ)/2 < q - ⌊q⌋ then ⌊q⌋ + 1
  else if Even ⌊q⌋ then ⌊q⌋ else ⌊q⌋ + 1

/-- `round(x, 2)`. -/
def round2 (q : ℚ) : ℚ := (roundHalfEven (q * 100) : ℚ) / 100

/-- One emitted `history_points` entry (lines 225-229). -/
structure HistoryPoint where
  date : ℤ
  value : ℚ
  percentage_change : ℚ
deriving DecidableEq

/-- The outer day loop (lines 195-229): one day at a time in ascending
order, emitting a point only when `has_data` is set, and threading the
`last_known_val` state across days. -/
def historyLoop (holdings : List Holding) (hh : List (String × HoldingHistory))
    (initial_portfolio_value : ℚ) :
    List ℤ → List (String × ℚ) → List HistoryPoint
  | [], _ => []
  | d :: rest, lastKnown =>
      let acc := holdings.foldl (dayHoldingStep hh d)
        { daily_total_value := 0, has_data := false, lastKnown := lastKnown }
      let tail := historyLoop holdings hh initial_portfolio_value rest acc.lastKnown
      if acc.has_data then
        { date := d
          value := round2 acc.daily_total_value
          percentage_change := round2
            (if initial_portfolio_value > 0 then
              ((acc.daily_total_value - initial_portfolio_value) /
                initial_portfolio_value) * 100
            else 0) } :: tail
      else tail

/-- The daily series of `get_portfolio_history` (lines 147-229): days run
from the earliest purchase date to `end_date` (today); the benchmark
alignment of lines 231-250 consumes but does not alter these points. -/
def get_portfolio_history (histFor : Holding → List (ℤ × ℚ)) (end_date : ℤ)
    (holdings : List Holding) : List HistoryPoint :=
  match holdings with
  | [] => []
  | h0 :: hs =>
      let earliest := hs.foldl (fun a h => min a h.purchase_date) h0.purchase_date
      let hh := buildHistories histFor (h0 :: hs)
      let initial := ((h0 :: hs).map (fun h => h.starting_price)).sum
      historyLoop (h0 :: hs) hh initial (dateRange earliest end_date) []

/-! ## Helper lemmas -/

theorem lookup_dictInsertS {α : Type} (m : List (String × α)) (k x : String)
    (v : α) :
    (dictInsertS m k v).lookup x = if x = k then some v else m.lookup x := by
  induction m with
  | nil =>
      by_cases h : x = k
      · simp [dictInsertS, List.lookup_cons, h]
      · simp [dictInsertS, List.lookup_cons, h, beq_false_of_ne h]
  | cons p m ih =>
      obtain ⟨a, b⟩ := p
      by_cases hpk : a = k
      · subst hpk
        by_cases hx : x = a
        · simp [dictInsertS, List.lookup_cons, hx]
        · simp [dictInsertS, List.lookup_cons, hx, beq_false_of_ne hx]
      · by_cases hx : x = a
        · subst hx
          simp [dictInsertS, hpk, List.lookup_cons, Ne.symm hpk]
        · simp [dictInsertS, hpk, List.lookup_cons, hx, beq_false_of_ne hx, ih]

theorem lookup_dictInsert {α : Type} (m : List (ℤ × α)) (k x : ℤ) (v : α) :
    (dictInsert m k v).lookup x = if x = k then some v else m.lookup x := by
  induction m with
  | nil =>
      by_cases h : x = k
      · simp [dictInsert, List.lookup_cons, h]
      · simp [dictInsert, List.lookup_cons, h, beq_false_of_ne h]
  | cons p m ih =>
      obtain ⟨a, b⟩ := p
      by_cases hpk : a = k
      · subst hpk
        by_cases hx : x = a
        · simp [dictInsert, List.lookup_cons, hx]
        · simp [dictInsert, List.lookup_cons, hx, beq_false_of_ne hx]
      · by_cases hx : x = a
        · subst hx
          simp [dictInsert, hpk, List.lookup_cons, Ne.symm hpk]
        · simp [dictInsert, hpk, List.lookup_cons, hx, beq_false_of_ne hx, ih]

/-! ## C9 -/

/-- C9: `compute_unrealised_gain` on `quantity=10, avg_cost=100,
current_price=150` yields position value 1500, cost basis 1000 and
unrealised gain 500; on `quantity=5, avg_cost=50, current_price=40` it
yields position value 200, cost basis 250 and unrealised gain -50. -/
theorem C9_compute_unrealised_gain_literals :
    (compute_unrealised_gain 10 100 150).position_value = 1500 ∧
    (compute_unrealised_gain 10 100 150).cost_basis = 1000 ∧
    (compute_unrealised_gain 10 100 150).unrealised_gain = 500 ∧
    (compute_unrealised_gain 5 50 40).position_value = 200 ∧
    (compute_unrealised_gain 5 50 40).cost_basis = 250 ∧
    (compute_unrealised_gain 5 50 40).unrealised_gain = -50 := by
  refine ⟨?_, ?_, ?_, ?_, ?_, ?_⟩ <;> norm_num [compute_unrealised_gain]

/-! ## C1 -/

/-- A SELL holding bought at day 0. -/
def sellHolding100 : Holding :=
  { id := "h1", portfolio_id := "p1", ticker := "TKR", starting_price := 100,
    purchase_date := 0, asset_type := AssetType.stock,
    trade_type := TradeType.sell, last_updated := 0 }

/-- Market data resolving every current price to 110 and every
purchase-date price to 100. -/
def oracle100to110 : MarketOracle :=
  { currentPrice := fun _ => some 110
    priceAtDate := fun _ _ => some 100
    assetName := fun t => t }

/-- C1: for `initial_price = 100, current_price = 110` the buy/sell-aware
formula (`test_trade_logic.calculate_percentage_change`) yields +10 for a
buy and -10 for a sell, exactly as the claim states; but the valuation of
holdings, `compute_portfolio_summary`, never consults `trade_type`: at the
same prices it reports percentage_change = +10 for a SELL holding, not -10.
The claim is the repository's documented intent and the valuation engine
omits it. -/
theorem C1_sell_sign_inversion_not_in_valuation :
    calculate_percentage_change 100 110 TradeType.buy = 10 ∧
    calculate_percentage_change 100 110 TradeType.sell = -10 ∧
    (compute_portfolio_summary oracle100to110 [sellHolding100]).holdings.map
        (fun r => r.percentage_change) = [10] := by
  refine ⟨?_, ?_, ?_⟩
  · rw [calculate_percentage_change, if_neg (by norm_num)]
    norm_num
    decide
  · rw [calculate_percentage_change, if_neg (by norm_num)]
    norm_num
  · norm_num [compute_portfolio_summary, summaryStep, mkCalculatedHolding,
      holdingValuation, oracle100to110, sellHolding100]

/-! ## C8 -/

theorem lookup_filterMap_key (f : ℤ → Option ℚ) (l : List ℤ) (x : ℤ) :
    (l.filterMap (fun d => (f d).map (fun p => (d, p)))).lookup x =
      if x ∈ l then f x else none := by
  induction l with
  | nil => simp
  | cons a l ih =>
      cases hfa : f a with
      | none =>
          by_cases hxa : x = a
          · subst hxa
            by_cases hal : x ∈ l <;>
              simp [List.filterMap_cons, hfa, hal, List.mem_cons, ih]
          · simp [List.filterMap_cons, hfa, List.mem_cons, hxa, ih]
      | some p =>
          by_cases hxa : x = a
          · subst hxa
            simp [List.filterMap_cons, hfa, List.lookup_cons]
          · simp [List.filterMap_cons, hfa, List.lookup_cons,
              beq_false_of_ne hxa, hxa, List.mem_cons, ih]

theorem lookup_get_cached_price_range (db : PriceStore) (ticker : String)
    (s e d : ℤ) :
    (get_cached_price_range db ticker s e).lookup d =
      if s ≤ d ∧ d ≤ e then get_cached_price db ticker d else none := by
  unfold get_cached_price_range
  rw [lookup_filterMap_key]
  by_cases h : d ∈ dateRange s e
  · rw [if_pos h, if_pos (dateRange_mem.mp h)]
  · rw [if_neg h, if_neg (fun hc => h (dateRange_mem.mpr hc))]

theorem dateRange_sorted (s e : ℤ) : (dateRange s e).Sorted (· < ·) := by
  unfold dateRange
  refine List.Pairwise.map _ (fun a b hab => ?_) (List.pairwise_lt_range _)
  omega

/-- C8: with `start_date ≤ end_date`, `find_missing_dates` returns the empty
list when every calendar day of the range has a stored observation, and
returns every calendar day of the range — endpoints included, strictly
ascending — when none of them has one. -/
theorem C8_find_missing_dates_extremes (db : PriceStore) (ticker : String)
    (s e : ℤ) (hse : s ≤ e) :
    ((∀ d ∈ dateRange s e, (get_cached_price db ticker d).isSome) →
        find_missing_dates db ticker s e = []) ∧
    ((∀ d ∈ dateRange s e, get_cached_price db ticker d = none) →
        find_missing_dates db ticker s e = dateRange s e ∧
        (∀ d, d ∈ find_missing_dates db ticker s e ↔ s ≤ d ∧ d ≤ e) ∧
        (find_missing_dates db ticker s e).Sorted (· < ·)) := by
  constructor
  · intro hall
    unfold find_missing_dates
    rw [List.filter_eq_nil_iff]
    intro d hd
    rw [lookup_get_cached_price_range, if_pos (dateRange_mem.mp hd)]
    simp [hall d hd]
  · intro hnone
    have heq : find_missing_dates db ticker s e = dateRange s e := by
      unfold find_missing_dates
      rw [List.filter_eq_self]
      intro d hd
      rw [lookup_get_cached_price_range, if_pos (dateRange_mem.mp hd)]
      simp [hnone d hd]
    refine ⟨heq, ?_, ?_⟩
    · intro d
      rw [heq]
      exact dateRange_mem
    · rw [heq]
      exact dateRange_sorted s e

/-- Witness for C8 at concrete inputs: a two-day range fully present in a
two-row store gives no missing dates; the same range against an empty store
gives back the whole range. -/
theorem C8_find_missing_dates_extremes_witness :
    ((0:ℤ) ≤ 1) ∧
    find_missing_dates
      [{ ticker := "A", date := 0, close_price := 1, volume := none },
       { ticker := "A", date := 1, close_price := 2, volume := none }] "A" 0 1 = [] ∧
    find_missing_dates ([] : PriceStore) "A" 0 1 = dateRange 0 1 := by
  refine ⟨by norm_num, ?_, ?_⟩
  · exact (C8_find_missing_dates_extremes _ "A" 0 1 (by norm_num)).1 (by decide)
  · exact ((C8_find_missing_dates_extremes ([] : PriceStore) "A" 0 1
      (by norm_num)).2 (by decide)).1

/-! ## C10 -/

theorem get_multiple_prices_foldl_lookup (getPrice : String → Option ℚ)
    (t : String) :
    ∀ (tickers : List String) (acc : List (String × ℚ)),
      (tickers.foldl
        (fun prices ticker =>
          match getPrice ticker with
          | some price => dictInsertS prices ticker price
          | none => prices) acc).lookup t =
      if t ∈ tickers ∧ (getPrice t).isSome then getPrice t
      else acc.lookup t := by
  intro tickers
  induction tickers with
  | nil => simp
  | cons a rest ih =>
      intro acc
      rw [List.foldl_cons, ih]
      by_cases hmem : t ∈ rest ∧ (getPrice t).isSome
      · rw [if_pos hmem, if_pos ⟨List.mem_cons_of_mem a hmem.1, hmem.2⟩]
      · rw [if_neg hmem]
        by_cases hta : t = a
        · subst hta
          cases hgp : getPrice t with
          | none => simp [hgp, hmem]
          | some p =>
              rw [if_pos ⟨List.mem_cons_self t rest, by simp [hgp]⟩]
              simp [hgp, lookup_dictInsertS]
        · cases hgp : getPrice a with
          | none =>
              rw [if_neg]
              rintro ⟨hmem2, hsome⟩
              rcases List.mem_cons.mp hmem2 with h | h
              · exact hta h
              · exact hmem ⟨h, hsome⟩
          | some p =>
              rw [lookup_dictInsertS, if_neg hta, if_neg]
              rintro ⟨hmem2, hsome⟩
              rcases List.mem_cons.mp hmem2 with h | h
              · exact hta h
              · exact hmem ⟨h, hsome⟩

/-- C10: the dict `get_multiple_prices` returns maps each input ticker whose
`get_current_price` lookup resolved to exactly that price, and contains no
entry for a ticker whose lookup failed or that was not asked for. -/
theorem C10_get_multiple_prices_lookup (getPrice : String → Option ℚ)
    (tickers : List String) (t : String) :
    (get_multiple_prices getPrice tickers).lookup t =
      if t ∈ tickers then getPrice t else none := by
  unfold get_multiple_prices
  rw [get_multiple_prices_foldl_lookup]
  by_cases hmem : t ∈ tickers
  · cases hgp : getPrice t with
    | none => simp [hmem, hgp]
    | some p => simp [hmem, hgp]
  · simp [hmem]

/-! ## C4 -/

theorem lookup_filter_ne_key {α : Type} (cache : MemCache α) (key : String) :
    (cache.filter (fun q => q.1 != key)).lookup key = none := by
  rw [List.lookup_eq_none_iff]
  intro q hq
  have hmem := List.of_mem_filter hq
  simp only [bne_iff_ne, ne_eq] at hmem
  simp [bne_iff_ne, ne_eq]
  exact fun h => hmem h.symm

theorem fetchWithRetry_first_success (provider : ℕ → FetchOutcome) (p : ℚ)
    (max_retries : ℕ) (base_delay : ℚ)
    (h0 : provider 0 = FetchOutcome.success p) (hmax : 1 ≤ max_retries) :
    fetchWithRetry provider max_retries base_delay =
      { price := some p, attempts := 1, delays := [] } := by
  unfold fetchWithRetry
  obtain ⟨n, rfl⟩ : ∃ n, max_retries = n + 1 := ⟨max_retries - 1, by omega⟩
  rw [List.range_succ_eq_map]
  simp [fetchLoopAux, h0]

/-- C4: a bucket entry stored at `t0` read at `t` with `t - t0 < ttl` is
returned as-is with the cache untouched — and `get_current_price` then
answers from it with zero provider attempts; read at `t - t0 ≥ ttl` the
lookup returns `None` and the entry is removed, and the `get_current_price`
call, finding the database cache empty too, performs exactly one provider
re-fetch (the provider answering on its first attempt). -/
theorem C4_ttl_cache_expiry {α : Type} (cache : MemCache α) (key : String)
    (ttl t t0 : ℤ) (v : α) (ticker : String) (cacheQ : MemCache ℚ) (vq : ℚ)
    (provider : ℕ → FetchOutcome) (p : ℚ) (max_retries : ℕ) (base_delay : ℚ)
    (hent : cache.lookup key = some { data := v, timestamp := t0 })
    (hentq : cacheQ.lookup ("current_price:" ++ ticker) =
      some { data := vq, timestamp := t0 })
    (hprov : provider 0 = FetchOutcome.success p)
    (hmax : 1 ≤ max_retries) :
    (t - t0 < ttl →
      getFromMemoryCache cache t key ttl = (some v, cache) ∧
      get_current_price ticker cacheQ t ttl none provider max_retries base_delay =
        { price := some vq, cache := cacheQ, attempts := 0, delays := [] }) ∧
    (ttl ≤ t - t0 →
      (getFromMemoryCache cache t key ttl).1 = none ∧
      (getFromMemoryCache cache t key ttl).2.lookup key = none ∧
      get_current_price ticker cacheQ t ttl none provider max_retries base_delay =
        { price := some p,
          cache := setMemoryCache
            (cacheQ.filter (fun q => q.1 != "current_price:" ++ ticker)) t
            ("current_price:" ++ ticker) p,
          attempts := 1, delays := [] }) := by
  constructor
  · intro hfresh
    have hmem : getFromMemoryCache cache t key ttl = (some v, cache) := by
      unfold getFromMemoryCache
      rw [hent]
      simp [hfresh]
    refine ⟨hmem, ?_⟩
    have hmemq : getFromMemoryCache cacheQ t ("current_price:" ++ ticker) ttl =
        (some vq, cacheQ) := by
      unfold getFromMemoryCache
      rw [hentq]
      simp [hfresh]
    unfold get_current_price
    simp only [hmemq]
  · intro hexp
    have hnotlt : ¬(t - t0 < ttl) := by omega
    have hmem : getFromMemoryCache cache t key ttl =
        (none, cache.filter (fun q => q.1 != key)) := by
      unfold getFromMemoryCache
      rw [hent]
      simp [hnotlt]
    have hmemq : getFromMemoryCache cacheQ t ("current_price:" ++ ticker) ttl =
        (none, cacheQ.filter (fun q => q.1 != "current_price:" ++ ticker)) := by
      unfold getFromMemoryCache
      rw [hentq]
      simp [hnotlt]
    refine ⟨by rw [hmem], by rw [hmem]; exact lookup_filter_ne_key cache key, ?_⟩
    unfold get_current_price
    simp only [hmemq,
      fetchWithRetry_first_success provider p max_retries base_delay hprov hmax]

/-- Witness for C4: key `"current_price:A"`, value 7 stored at time 0 with a
15-minute TTL; a read at time 10 hits and makes no provider attempt; a read
at time 20 misses, evicts, and the same call re-fetches 9 with exactly one
provider attempt. -/
theorem C4_ttl_cache_expiry_witness :
    ((10:ℤ) - 0 < 15 ∧
      getFromMemoryCache [("current_price:A", { data := (7:ℚ), timestamp := 0 })]
        10 "current_price:A" 15 =
        (some 7, [("current_price:A", { data := (7:ℚ), timestamp := 0 })]) ∧
      get_current_price "A" [("current_price:A", { data := (7:ℚ), timestamp := 0 })]
        10 15 none (fun _ => FetchOutcome.success 9) 3 2 =
        { price := some 7,
          cache := [("current_price:A", { data := (7:ℚ), timestamp := 0 })],
          attempts := 0, delays := [] }) ∧
    ((15:ℤ) ≤ 20 - 0 ∧
      (getFromMemoryCache [("current_price:A", { data := (7:ℚ), timestamp := 0 })]
        20 "current_price:A" 15).1 = none ∧
      get_current_price "A" [("current_price:A", { data := (7:ℚ), timestamp := 0 })]
        20 15 none (fun _ => FetchOutcome.success 9) 3 2 =
        { price := some 9,
          cache := [("current_price:A", { data := (9:ℚ), timestamp := 20 })],
          attempts := 1, delays := [] }) := by
  have h := C4_ttl_cache_expiry
    [("current_price:A", { data := (7:ℚ), timestamp := 0 })] "current_price:A"
    15 10 0 (7:ℚ) "A" [("current_price:A", { data := (7:ℚ), timestamp := 0 })]
    (7:ℚ) (fun _ => FetchOutcome.success 9) 9 3 2 rfl rfl rfl (by norm_num)
  have h2 := C4_ttl_cache_expiry
    [("current_price:A", { data := (7:ℚ), timestamp := 0 })] "current_price:A"
    15 20 0 (7:ℚ) "A" [("current_price:A", { data := (7:ℚ), timestamp := 0 })]
    (7:ℚ) (fun _ => FetchOutcome.success 9) 9 3 2 rfl rfl rfl (by norm_num)
  obtain ⟨ha, hb⟩ := h.1 (by norm_num)
  obtain ⟨hc, hd, he⟩ := h2.2 (by norm_num)
  refine ⟨⟨by norm_num, ha, hb⟩, by norm_num, hc, ?_⟩
  rw [he]
  rfl

/-! ## C6 -/

theorem fetchLoopAux_cons (provider : ℕ → FetchOutcome) (base_delay : ℚ)
    (attempt : ℕ) (rest : List ℕ) :
    fetchLoopAux provider base_delay (attempt :: rest) =
      (let ds : List ℚ := if attempt > 0 then [base_delay * 2 ^ attempt] else [];
       match provider attempt with
       | .success p => { price := some p, attempts := 1, delays := ds }
       | _ =>
          match rest with
          | [] => { price := none, attempts := 1, delays := ds }
          | _ :: _ =>
              let r := fetchLoopAux provider base_delay rest
              { price := r.price, attempts := r.attempts + 1,
                delays := ds ++ r.delays }) := rfl

theorem fetchLoopAux_attempts_le (provider : ℕ → FetchOutcome) (base_delay : ℚ) :
    ∀ l : List ℕ, (fetchLoopAux provider base_delay l).attempts ≤ l.length
  | [] => by simp [fetchLoopAux]
  | attempt :: rest => by
      rw [fetchLoopAux_cons]
      cases provider attempt with
      | success p => simp
      | empty =>
          cases rest with
          | nil => simp
          | cons b bs =>
              have := fetchLoopAux_attempts_le provider base_delay (b :: bs)
              simpa using Nat.add_le_add_right this 1
      | failure =>
          cases rest with
          | nil => simp
          | cons b bs =>
              have := fetchLoopAux_attempts_le provider base_delay (b :: bs)
              simpa using Nat.add_le_add_right this 1

theorem fetchLoopAux_delays (provider : ℕ → FetchOutcome) (base_delay : ℚ) :
    ∀ l : List ℕ,
      (fetchLoopAux provider base_delay l).delays =
        ((l.take (fetchLoopAux provider base_delay l).attempts).filter
          (fun i => decide (0 < i))).map (fun i => base_delay * 2 ^ i)
  | [] => by simp [fetchLoopAux]
  | attempt :: rest => by
      rw [fetchLoopAux_cons]
      cases provider attempt with
      | success p =>
          cases Nat.eq_zero_or_pos attempt with
          | inl h0 => subst h0; simp
          | inr hpos => simp [hpos]
      | empty =>
          cases rest with
          | nil =>
              cases Nat.eq_zero_or_pos attempt with
              | inl h0 => subst h0; simp
              | inr hpos => simp [hpos]
          | cons b bs =>
              have ih := fetchLoopAux_delays provider base_delay (b :: bs)
              cases Nat.eq_zero_or_pos attempt with
              | inl h0 => subst h0; simpa using ih
              | inr hpos => simpa [hpos] using ih
      | failure =>
          cases rest with
          | nil =>
              cases Nat.eq_zero_or_pos attempt with
              | inl h0 => subst h0; simp
              | inr hpos => simp [hpos]
          | cons b bs =>
              have ih := fetchLoopAux_delays provider base_delay (b :: bs)
              cases Nat.eq_zero_or_pos attempt with
              | inl h0 => subst h0; simpa using ih
              | inr hpos => simpa [hpos] using ih

theorem fetchLoopAux_congr (p1 p2 : ℕ → FetchOutcome) (base_delay : ℚ)
    (h : ∀ i, (p1 i).successPrice = (p2 i).successPrice) :
    ∀ l : List ℕ, fetchLoopAux p1 base_delay l = fetchLoopAux p2 base_delay l
  | [] => rfl
  | attempt :: rest => by
      have hi := h attempt
      have ih := fetchLoopAux_congr p1 p2 base_delay h rest
      rw [fetchLoopAux_cons, fetchLoopAux_cons]
      cases h1 : p1 attempt <;> cases h2 : p2 attempt <;>
        rw [h1, h2] at hi <;>
        simp_all [FetchOutcome.successPrice]

theorem fetchLoopAux_all_fail (provider : ℕ → FetchOutcome) (base_delay : ℚ) :
    ∀ l : List ℕ, (∀ i ∈ l, (provider i).successPrice = none) →
      (fetchLoopAux provider base_delay l).price = none
  | [], _ => rfl
  | attempt :: rest, h => by
      have hhead := h attempt (List.mem_cons_self _ _)
      have ih := fetchLoopAux_all_fail provider base_delay rest
        (fun i hi => h i (List.mem_cons_of_mem _ hi))
      rw [fetchLoopAux_cons]
      cases hp : provider attempt with
      | success p => rw [hp] at hhead; simp [FetchOutcome.successPrice] at hhead
      | empty => cases rest with
          | nil => simp
          | cons b bs => simpa using ih
      | failure => cases rest with
          | nil => simp
          | cons b bs => simpa using ih

/-- C6: `get_current_price` makes at most `max_retries` provider attempts;
the sleeps it performs are exactly `base_delay * 2 ^ attempt` for each retry
attempt actually made (none before the first attempt); the loop's behaviour
depends only on which attempts deliver a price, so an empty response is
retried exactly like a raised transport error; and when every attempt
delivers nothing, the call returns `None` rather than raising. -/
theorem C6_retry_policy (provider : ℕ → FetchOutcome) (max_retries : ℕ)
    (base_delay : ℚ) (ticker : String) (cache : MemCache ℚ) (now ttl : ℤ)
    (db_price : Option ℚ) :
    ((get_current_price ticker cache now ttl db_price provider max_retries
        base_delay).attempts ≤ max_retries) ∧
    ((fetchWithRetry provider max_retries base_delay).delays =
      ((List.range (fetchWithRetry provider max_retries base_delay).attempts).filter
        (fun i => decide (0 < i))).map (fun i => base_delay * 2 ^ i)) ∧
    (∀ p2 : ℕ → FetchOutcome, (∀ i, (p2 i).successPrice = (provider i).successPrice) →
      fetchWithRetry p2 max_retries base_delay =
        fetchWithRetry provider max_retries base_delay) ∧
    ((∀ i, (provider i).successPrice = none) →
      (fetchWithRetry provider max_retries base_delay).price = none ∧
      ((getFromMemoryCache cache now ("current_price:" ++ ticker) ttl).1 = none →
        db_price = none →
        (get_current_price ticker cache now ttl db_price provider max_retries
          base_delay).price = none)) := by
  have hfetchle : (fetchWithRetry provider max_retries base_delay).attempts ≤
      max_retries := by
    have := fetchLoopAux_attempts_le provider base_delay (List.range max_retries)
    simpa [fetchWithRetry] using this
  refine ⟨?_, ?_, ?_, ?_⟩
  · unfold get_current_price
    cases hmem : getFromMemoryCache cache now ("current_price:" ++ ticker) ttl with
    | mk o c =>
        cases o with
        | some p => simp [hmem]
        | none =>
            cases db_price with
            | some p => simp [hmem]
            | none =>
                cases hr : (fetchWithRetry provider max_retries base_delay).price <;>
                  · simp only [hmem, hr]
                    exact hfetchle
  · have h := fetchLoopAux_delays provider base_delay (List.range max_retries)
    have htake : (List.range max_retries).take
        (fetchLoopAux provider base_delay (List.range max_retries)).attempts =
        List.range (fetchLoopAux provider base_delay (List.range max_retries)).attempts := by
      rw [List.take_range]
      congr 1
      exact Nat.min_eq_left (by
        simpa using fetchLoopAux_attempts_le provider base_delay (List.range max_retries))
    rw [fetchWithRetry] at *
    rw [h, htake]
  · intro p2 h2
    exact fetchLoopAux_congr p2 provider base_delay
      (fun i => (h2 i)) (List.range max_retries)
  · intro hall
    have hnone : (fetchWithRetry provider max_retries base_delay).price = none :=
      fetchLoopAux_all_fail provider base_delay (List.range max_retries)
        (fun i _ => hall i)
    refine ⟨hnone, ?_⟩
    intro hmiss hdb
    unfold get_current_price
    cases hmem : getFromMemoryCache cache now ("current_price:" ++ ticker) ttl with
    | mk o c =>
        cases o with
        | some p => rw [hmem] at hmiss; simp at hmiss
        | none => subst hdb; simp [hmem, hnone]

/-- Witness for C6: an always-empty provider with the default budget of 3
attempts and base delay 2 — the call makes at most 3 attempts, behaves the
same as an always-raising provider, returns `None`, and its recorded sleeps
are `[4, 8]` (none before the first attempt, `2 * 2^i` before retry `i`). -/
theorem C6_retry_policy_witness :
    (get_current_price "A" [] 0 15 none (fun _ => FetchOutcome.empty) 3 2).attempts
        ≤ 3 ∧
    fetchWithRetry (fun _ => FetchOutcome.failure) 3 2 =
      fetchWithRetry (fun _ => FetchOutcome.empty) 3 2 ∧
    (get_current_price "A" [] 0 15 none (fun _ => FetchOutcome.empty) 3 2).price
        = none ∧
    (fetchWithRetry (fun _ => FetchOutcome.empty) 3 2).delays = [4, 8] := by
  have h := C6_retry_policy (fun _ => FetchOutcome.empty) 3 2 "A" [] 0 15 none
  refine ⟨h.1, h.2.2.1 _ (fun i => rfl), (h.2.2.2 (fun i => rfl)).2 rfl rfl, ?_⟩
  norm_num [fetchWithRetry, fetchLoopAux, List.range_succ]

/-! ## C3 -/

/-- C3 counterexample: store holding ticker `"A"` only at day 0, requested
range day 0 to day 1.  The missing set is exactly `[1]`, yet the single
fetcher call requests the whole range `(0, 1)` — which contains day 0,
a date already present in the store.  So the fetcher is *not* asked only
for the missing subset, and already-present dates are re-fetched. -/
theorem C3_refetches_cached_dates :
    find_missing_dates
      [{ ticker := "A", date := 0, close_price := 50, volume := none }] "A" 0 1
      = [1] ∧
    (get_historical_prices_series
      [{ ticker := "A", date := 0, close_price := 50, volume := none }] "A" 0 1
      (fun _ _ => some [{ date := 0, close := 51, volume := none },
                        { date := 1, close := 52, volume := none }])).fetchRequest
      = some (0, 1) ∧
    (0:ℤ) ∈ dateRange 0 1 ∧
    (get_cached_price
      [{ ticker := "A", date := 0, close_price := 50, volume := none }] "A" 0).isSome
      := by decide

theorem lookup_merge_foldl (fresh : List FetchedObs) :
    ∀ (cached : List (ℤ × ℚ)) (d : ℤ),
      ((fresh.foldl (fun m p => dictInsert m p.date p.close) cached).lookup d) =
        ((fresh.reverse.map (fun p => (p.date, p.close))).lookup d).or
          (cached.lookup d) := by
  induction fresh with
  | nil => intro cached d; simp
  | cons a fresh ih =>
      intro cached d
      rw [List.foldl_cons, ih, List.reverse_cons, List.map_append,
        List.lookup_append, Option.or_assoc]
      congr 1
      rw [lookup_dictInsert]
      by_cases hd : d = a.date
      · simp [hd, List.lookup_cons]
      · simp [hd, List.lookup_cons, beq_false_of_ne hd]

theorem filter_map_upd (db : PriceStore) (q : PriceObs → Bool)
    (upd : PriceObs → PriceObs) (hq : ∀ r, q (upd r) = q r) :
    (db.map upd).filter q = (db.filter q).map upd := by
  induction db with
  | nil => rfl
  | cons r db ih =>
      simp only [List.map_cons, List.filter_cons, hq r]
      cases q r <;> simp [ih]

theorem get_cached_price_store_price (db : PriceStore) (tick : String)
    (d : ℤ) (c : ℚ) (vol : Option ℤ) (d₀ : ℤ) :
    get_cached_price (store_price db tick d c vol) tick d₀ =
      if d₀ = d then some c else get_cached_price db tick d₀ := by
  unfold store_price
  by_cases hany : db.any (fun r => r.ticker == tick && r.date == d)
  · rw [if_pos hany]
    unfold get_cached_price
    rw [filter_map_upd _ _ _ (fun r => by
      by_cases hc : (r.ticker == tick && r.date == d) = true <;> simp [hc])]
    by_cases hd : d₀ = d
    · subst hd
      rcases hfe : (db.filter (fun r => r.ticker == tick && r.date == d₀)) with _ | ⟨r₀, rs⟩
      · exfalso
        rcases List.any_eq_true.mp hany with ⟨r, hr, hpr⟩
        have : r ∈ db.filter (fun r => r.ticker == tick && r.date == d₀) :=
          List.mem_filter.mpr ⟨hr, hpr⟩
        rw [hfe] at this
        exact absurd this (List.not_mem_nil r)
      · have hr₀ : r₀ ∈ db.filter (fun r => r.ticker == tick && r.date == d₀) := by
          rw [hfe]; exact List.mem_cons_self _ _
        have hpred := (List.mem_filter.mp hr₀).2
        simp only [Bool.and_eq_true, beq_iff_eq] at hpred
        simp [hfe, hpred.1, hpred.2]
    · rcases hfe : (db.filter (fun r => r.ticker == tick && r.date == d₀)) with _ | ⟨r₀, rs⟩
      · simp [hfe, hd]
      · have hr₀ : r₀ ∈ db.filter (fun r => r.ticker == tick && r.date == d₀) := by
          rw [hfe]; exact List.mem_cons_self _ _
        have hpred := (List.mem_filter.mp hr₀).2
        have hdate : r₀.date = d₀ := by
          simp only [Bool.and_eq_true, beq_iff_eq] at hpred
          exact hpred.2
        have hnot : ¬(r₀.ticker = tick ∧ r₀.date = d) := by
          rintro ⟨h1, h2⟩
          rw [hdate] at h2
          exact hd h2
        simp [hfe, hnot, hd]
  · rw [if_neg hany]
    unfold get_cached_price
    rw [List.filter_append]
    by_cases hd : d₀ = d
    · subst hd
      have hnil : db.filter (fun r => r.ticker == tick && r.date == d₀) = [] := by
        rw [List.filter_eq_nil_iff]
        intro r hr
        exact fun hc => hany (List.any_eq_true.mpr ⟨r, hr, hc⟩)
      simp [hnil]
    · have hnew : (List.filter (fun r => r.ticker == tick && r.date == d₀)
          ([{ ticker := tick, date := d, close_price := c, volume := vol }] :
            PriceStore)) = [] := by
        simp [List.filter_cons, beq_false_of_ne (fun h : d = d₀ => hd h.symm)]
      rw [hnew, List.append_nil, if_neg hd]

theorem get_cached_price_store_bulk (tick : String) (fresh : List FetchedObs) :
    ∀ (db : PriceStore) (d₀ : ℤ),
      get_cached_price (store_bulk_prices db tick fresh) tick d₀ =
        ((fresh.reverse.map (fun p => (p.date, p.close))).lookup d₀).or
          (get_cached_price db tick d₀) := by
  induction fresh with
  | nil => intro db d₀; simp [store_bulk_prices]
  | cons a fresh ih =>
      intro db d₀
      have hstep : store_bulk_prices db tick (a :: fresh) =
          store_bulk_prices (store_price db tick a.date a.close a.volume) tick fresh := by
        simp [store_bulk_prices]
      rw [hstep, ih, get_cached_price_store_price, List.reverse_cons,
        List.map_append, List.lookup_append, Option.or_assoc]
      congr 1
      by_cases hd : d₀ = a.date
      · simp [hd, List.lookup_cons]
      · simp [hd, List.lookup_cons, beq_false_of_ne hd]

/-- C3 amended: with a non-empty missing set, `get_historical_prices_series`
makes exactly one fetcher call, for the *whole* requested range (a coarse
request covering the missing dates but also any already-cached ones); every
returned observation is stored in the price store and overlaid on the cached
map (fresh values winning); with an empty missing set no fetcher call is
made and cache and store are returned untouched. -/
theorem C3_series_gap_fill_amended (db : PriceStore) (ticker : String)
    (s e : ℤ) (fetch : ℤ → ℤ → Option (List FetchedObs)) :
    (find_missing_dates db ticker s e = [] →
      get_historical_prices_series db ticker s e fetch =
        { series := get_cached_price_range db ticker s e, store := db,
          fetchRequest := none }) ∧
    (find_missing_dates db ticker s e ≠ [] →
      (get_historical_prices_series db ticker s e fetch).fetchRequest =
        some (s, e)) ∧
    (∀ fresh, find_missing_dates db ticker s e ≠ [] →
      fetch s e = some fresh → fresh ≠ [] →
      (∀ d, ((get_historical_prices_series db ticker s e fetch).series.lookup d) =
        ((fresh.reverse.map (fun p => (p.date, p.close))).lookup d).or
          ((get_cached_price_range db ticker s e).lookup d)) ∧
      (∀ d, get_cached_price
          (get_historical_prices_series db ticker s e fetch).store ticker d =
        ((fresh.reverse.map (fun p => (p.date, p.close))).lookup d).or
          (get_cached_price db ticker d))) := by
  refine ⟨?_, ?_, ?_⟩
  · intro hmiss
    unfold get_historical_prices_series
    simp [hmiss]
  · intro hmiss
    unfold get_historical_prices_series
    have hlen : 0 < (find_missing_dates db ticker s e).length :=
      List.length_pos.mpr hmiss
    simp only [if_pos hlen]
    cases hf : fetch s e with
    | none => simp
    | some fresh =>
        by_cases hlen2 : 0 < fresh.length
        · simp [hlen2]
        · simp [hlen2]
  · intro fresh hmiss hf hne
    have hlen : 0 < (find_missing_dates db ticker s e).length :=
      List.length_pos.mpr hmiss
    have hlen2 : 0 < fresh.length := List.length_pos.mpr hne
    have hres : get_historical_prices_series db ticker s e fetch =
        { series := fresh.foldl (fun m p => dictInsert m p.date p.close)
            (get_cached_price_range db ticker s e)
          store := store_bulk_prices db ticker fresh
          fetchRequest := some (s, e) } := by
      unfold get_historical_prices_series
      simp [hlen, hf, hlen2]
    rw [hres]
    exact ⟨fun d => lookup_merge_foldl fresh _ d,
           fun d => get_cached_price_store_bulk ticker fresh db d⟩

/-- Witness for C3's amended claim at the counterexample's inputs: store has
day 0 only, range 0..1, fetcher returns days 0 and 1; the call requests
`(0, 1)`, the returned series maps day 0 to the fresh 51 (fresh wins over
the cached 50) and day 1 to 52, and the store afterwards holds the fresh
values; a second store holding both days makes no fetch at all. -/
theorem C3_series_gap_fill_amended_witness :
    (get_historical_prices_series
        [{ ticker := "A", date := 0, close_price := 50, volume := none }] "A" 0 1
        (fun _ _ => some [{ date := 0, close := 51, volume := none },
                          { date := 1, close := 52, volume := none }])).fetchRequest
      = some (0, 1) ∧
    ((get_historical_prices_series
        [{ ticker := "A", date := 0, close_price := 50, volume := none }] "A" 0 1
        (fun _ _ => some [{ date := 0, close := 51, volume := none },
                          { date := 1, close := 52, volume := none }])).series.lookup 0
      = some 51) ∧
    (get_cached_price
        (get_historical_prices_series
          [{ ticker := "A", date := 0, close_price := 50, volume := none }] "A" 0 1
          (fun _ _ => some [{ date := 0, close := 51, volume := none },
                            { date := 1, close := 52, volume := none }])).store "A" 1
      = some 52) ∧
    (get_historical_prices_series
        [{ ticker := "A", date := 0, close_price := 50, volume := none },
         { ticker := "A", date := 1, close_price := 60, volume := none }] "A" 0 1
        (fun _ _ => some [])).fetchRequest = none := by
  have h := C3_series_gap_fill_amended
    [{ ticker := "A", date := 0, close_price := 50, volume := none }] "A" 0 1
    (fun _ _ => some [{ date := 0, close := 51, volume := none },
                      { date := 1, close := 52, volume := none }])
  have h2 := C3_series_gap_fill_amended
    [{ ticker := "A", date := 0, close_price := 50, volume := none },
     { ticker := "A", date := 1, close_price := 60, volume := none }] "A" 0 1
    (fun _ _ => some [])
  have hm : find_missing_dates
      [{ ticker := "A", date := 0, close_price := 50, volume := none }] "A" 0 1
      ≠ [] := by decide
  have h3 := h.2.2 [{ date := 0, close := 51, volume := none },
                    { date := 1, close := 52, volume := none }] hm rfl (by decide)
  refine ⟨h.2.1 hm, ?_, ?_, ?_⟩
  · rw [h3.1 0]; decide
  · rw [h3.2 1]; decide
  · rw [(h2.1 (by decide))]

/-! ## C2 -/

theorem summary_fold_holdings (m : MarketOracle) :
    ∀ (holdings : List Holding) (acc : SummaryAcc),
      (holdings.foldl (summaryStep m) acc).calculated_holdings =
        acc.calculated_holdings ++ holdings.map (mkCalculatedHolding m) := by
  intro holdings
  induction holdings with
  | nil => intro acc; simp
  | cons h hs ih =>
      intro acc
      rw [List.foldl_cons, ih]
      simp [summaryStep]

/-- C2: `compute_portfolio_summary` emits one response row per holding, in
order; the row of a holding is a function of that holding and of the market
answers for its own ticker alone (so a failed fetch for one ticker leaves
every other holding's row unchanged, and the total function raises nothing);
and when the holding's current-price fetch fails its percentage change is 0
and its current value (its contribution to the totals and the allocation) is
its cost `starting_price`. -/
theorem C2_fetch_failure_fallback (m : MarketOracle) (holdings : List Holding)
    (i : ℕ) (h : Holding) (hi : holdings.get? i = some h) :
    (compute_portfolio_summary m holdings).holdings.length = holdings.length ∧
    (compute_portfolio_summary m holdings).holdings.get? i =
      some (mkCalculatedHolding m h) ∧
    (m.currentPrice h.ticker = none →
      (mkCalculatedHolding m h).percentage_change = 0 ∧
      (holdingValuation m h).2 = h.starting_price) ∧
    (∀ m₂ : MarketOracle,
      m₂.currentPrice h.ticker = m.currentPrice h.ticker →
      m₂.priceAtDate h.ticker h.purchase_date =
        m.priceAtDate h.ticker h.purchase_date →
      m₂.assetName h.ticker = m.assetName h.ticker →
      mkCalculatedHolding m₂ h = mkCalculatedHolding m h ∧
      holdingValuation m₂ h = holdingValuation m h) := by
  have hch : (compute_portfolio_summary m holdings).holdings =
      holdings.map (mkCalculatedHolding m) := by
    simp only [compute_portfolio_summary, summary_fold_holdings m holdings,
      List.nil_append]
  refine ⟨?_, ?_, ?_, ?_⟩
  · rw [hch, List.length_map]
  · rw [hch, List.get?_map, hi]
    rfl
  · intro hnone
    constructor
    · simp [mkCalculatedHolding, holdingValuation, hnone]
    · simp [holdingValuation, hnone]
  · intro m₂ hcp hpa han
    constructor
    · unfold mkCalculatedHolding holdingValuation
      rw [hcp, hpa, han]
    · unfold holdingValuation
      rw [hcp, hpa]

/-- A holding on ticker `"A"` (whose fetch will fail) next to one on `"B"`
(whose fetch succeeds). -/
def holdingA : Holding :=
  { id := "hA", portfolio_id := "p1", ticker := "A", starting_price := 100,
    purchase_date := 0, asset_type := AssetType.stock,
    trade_type := TradeType.buy, last_updated := 0 }

def holdingB : Holding :=
  { id := "hB", portfolio_id := "p1", ticker := "B", starting_price := 200,
    purchase_date := 0, asset_type := AssetType.etf,
    trade_type := TradeType.buy, last_updated := 0 }

/-- Market data where ticker `"A"` has no current price and `"B"` resolves. -/
def oracleAfails : MarketOracle :=
  { currentPrice := fun t => if t = "A" then none else some 110
    priceAtDate := fun _ _ => some 100
    assetName := fun t => t }

/-- Witness for C2: in the batch `[A, B]` with `A`'s fetch failing, both
rows are present, `A`'s row has percentage change 0 and contributes its cost
100, and `B`'s row is the same as with an oracle whose only difference is
that `A` resolves. -/
theorem C2_fetch_failure_fallback_witness :
    ([holdingA, holdingB].get? 0 = some holdingA) ∧
    (compute_portfolio_summary oracleAfails [holdingA, holdingB]).holdings.length
      = 2 ∧
    (mkCalculatedHolding oracleAfails holdingA).percentage_change = 0 ∧
    (holdingValuation oracleAfails holdingA).2 = 100 := by
  have h := C2_fetch_failure_fallback oracleAfails [holdingA, holdingB] 0
    holdingA rfl
  have hfail : oracleAfails.currentPrice holdingA.ticker = none := rfl
  refine ⟨rfl, h.1, (h.2.2.1 hfail).1, ?_⟩
  rw [(h.2.2.1 hfail).2]
  rfl

/-! ## C5 -/

/-- The keys (tickers) of the allocation dict. -/
def allocKeys (mp : List (String × AllocationItem)) : List String :=
  mp.map (fun p => p.1)

/-- The sum of the allocation dict's values. -/
def allocSum (mp : List (String × AllocationItem)) : ℚ :=
  (mp.map (fun p => p.2.value)).sum

/-- The summed current value of the holdings on one ticker. -/
def tickerValueSum (m : MarketOracle) (t : String) (holdings : List Holding) : ℚ :=
  ((holdings.filter (fun h => h.ticker == t)).map
    (fun h => (holdingValuation m h).2)).sum

theorem dictInsertS_of_lookup_none {α : Type} (mp : List (String × α))
    (k : String) (v : α) (hl : mp.lookup k = none) :
    dictInsertS mp k v = mp ++ [(k, v)] := by
  induction mp with
  | nil => rfl
  | cons p mp ih =>
      rw [List.lookup_cons] at hl
      by_cases hk : k = p.1
      · rw [beq_iff_eq.mpr hk] at hl
        simp at hl
      · have hk2 : (k == p.1) = false := beq_false_of_ne hk
        rw [hk2] at hl
        have : ¬p.1 = k := fun h => hk h.symm
        simp [dictInsertS, this, ih hl]

theorem lookup_allocUpdate (mp : List (String × AllocationItem)) (h : Holding)
    (name : String) (v : ℚ) (t : String) :
    (allocUpdate mp h name v).lookup t =
      if t = h.ticker then
        (match mp.lookup h.ticker with
         | some entry => some { entry with value := entry.value + v }
         | none => some { name := name, value := v,
                          type_str := h.asset_type.value })
      else mp.lookup t := by
  unfold allocUpdate
  cases hl : mp.lookup h.ticker with
  | none => rw [lookup_dictInsertS]
  | some entry => rw [lookup_dictInsertS]

theorem allocSum_dictInsertS (k : String) (e2 : AllocationItem) :
    ∀ (mp : List (String × AllocationItem)) (entry : AllocationItem),
      mp.lookup k = some entry →
      allocSum (dictInsertS mp k e2) + entry.value = allocSum mp + e2.value := by
  intro mp
  induction mp with
  | nil => intro entry hl; simp at hl
  | cons p mp ih =>
      intro entry hl
      rw [List.lookup_cons] at hl
      by_cases hk : k = p.1
      · rw [beq_iff_eq.mpr hk] at hl
        simp only [Option.some.injEq] at hl
        subst hl
        have hp1 : p.1 = k := hk.symm
        simp [dictInsertS, hp1, allocSum]
        ring
      · have hk2 : (k == p.1) = false := beq_false_of_ne hk
        rw [hk2] at hl
        have hne : ¬p.1 = k := fun h => hk h.symm
        have hrec := ih entry hl
        have hstep : dictInsertS (p :: mp) k e2 = p :: dictInsertS mp k e2 := by
          simp [dictInsertS, hne]
        rw [hstep]
        simp only [allocSum, List.map_cons, List.sum_cons] at *
        linarith

theorem allocSum_allocUpdate (mp : List (String × AllocationItem)) (h : Holding)
    (name : String) (v : ℚ) :
    allocSum (allocUpdate mp h name v) = allocSum mp + v := by
  unfold allocUpdate
  cases hl : mp.lookup h.ticker with
  | none =>
      rw [dictInsertS_of_lookup_none mp h.ticker _ hl]
      simp [allocSum]
  | some entry =>
      have := allocSum_dictInsertS h.ticker
        { entry with value := entry.value + v } mp entry hl
      simp only at this
      linarith

theorem map_fst_dictInsertS_of_isSome {α : Type} (k : String) (v : α) :
    ∀ (mp : List (String × α)), (mp.lookup k).isSome →
      (dictInsertS mp k v).map (fun p => p.1) = mp.map (fun p => p.1) := by
  intro mp
  induction mp with
  | nil => intro hs; simp at hs
  | cons p mp ih =>
      intro hs
      by_cases hk : p.1 = k
      · simp [dictInsertS, hk]
      · rw [List.lookup_cons] at hs
        have hb : (k == p.1) = false := beq_false_of_ne (fun h2 => hk h2.symm)
        rw [hb] at hs
        simp only [dictInsertS, if_neg hk, List.map_cons]
        rw [ih hs]

theorem allocKeys_allocUpdate (mp : List (String × AllocationItem)) (h : Holding)
    (name : String) (v : ℚ) :
    allocKeys (allocUpdate mp h name v) =
      if (mp.lookup h.ticker).isSome then allocKeys mp
      else allocKeys mp ++ [h.ticker] := by
  unfold allocUpdate
  cases hl : mp.lookup h.ticker with
  | none =>
      rw [dictInsertS_of_lookup_none mp h.ticker _ hl]
      simp [allocKeys]
  | some entry =>
      simp only [hl, Option.isSome_some, if_pos]
      exact map_fst_dictInsertS_of_isSome h.ticker _ mp (by simp [hl])

theorem allocKeys_nodup_allocUpdate (mp : List (String × AllocationItem))
    (h : Holding) (name : String) (v : ℚ) (hnd : (allocKeys mp).Nodup) :
    (allocKeys (allocUpdate mp h name v)).Nodup := by
  rw [allocKeys_allocUpdate]
  cases hl : mp.lookup h.ticker with
  | some entry => simpa [hl] using hnd
  | none =>
      have hnotmem : h.ticker ∉ allocKeys mp := by
        intro hc
        rcases List.mem_map.mp hc with ⟨p, hp, hfst⟩
        rw [List.lookup_eq_none_iff] at hl
        have := hl p hp
        simp [bne_iff_ne] at this
        exact this hfst.symm
      simp [hl]
      exact List.Nodup.append hnd (List.nodup_singleton _)
        (by simpa using hnotmem)

theorem summary_fold_total (m : MarketOracle) :
    ∀ (holdings : List Holding) (acc : SummaryAcc),
      (holdings.foldl (summaryStep m) acc).total_current_value =
        acc.total_current_value +
          (holdings.map (fun h => (holdingValuation m h).2)).sum := by
  intro holdings
  induction holdings with
  | nil => intro acc; simp
  | cons h hs ih =>
      intro acc
      rw [List.foldl_cons, ih]
      simp only [summaryStep, List.map_cons, List.sum_cons]
      ring

theorem summary_fold_allocSum (m : MarketOracle) :
    ∀ (holdings : List Holding) (acc : SummaryAcc),
      allocSum ((holdings.foldl (summaryStep m) acc).allocation_map) =
        allocSum acc.allocation_map +
          (holdings.map (fun h => (holdingValuation m h).2)).sum := by
  intro holdings
  induction holdings with
  | nil => intro acc; simp
  | cons h hs ih =>
      intro acc
      rw [List.foldl_cons, ih]
      have hstep : (summaryStep m acc h).allocation_map =
          allocUpdate acc.allocation_map h (m.assetName h.ticker)
            (holdingValuation m h).2 := rfl
      rw [hstep, allocSum_allocUpdate]
      simp only [List.map_cons, List.sum_cons]
      ring

theorem summary_fold_keys_nodup (m : MarketOracle) :
    ∀ (holdings : List Holding) (acc : SummaryAcc),
      (allocKeys acc.allocation_map).Nodup →
      (allocKeys ((holdings.foldl (summaryStep m) acc).allocation_map)).Nodup := by
  intro holdings
  induction holdings with
  | nil => intro acc hnd; simpa using hnd
  | cons h hs ih =>
      intro acc hnd
      rw [List.foldl_cons]
      exact ih _ (allocKeys_nodup_allocUpdate _ _ _ _ hnd)

theorem mem_allocKeys (mp : List (String × AllocationItem)) (t : String) :
    t ∈ allocKeys mp ↔ (mp.lookup t).isSome := by
  unfold allocKeys
  rw [List.lookup_isSome_iff]
  constructor
  · intro hmem
    rcases List.mem_map.mp hmem with ⟨p, hp, hfst⟩
    exact ⟨p, hp, beq_iff_eq.mpr hfst.symm⟩
  · rintro ⟨p, hp, hbeq⟩
    exact List.mem_map.mpr ⟨p, hp, (beq_iff_eq.mp hbeq).symm⟩

theorem alloc_lookup_fold (m : MarketOracle) (t : String) :
    ∀ (holdings : List Holding) (acc : SummaryAcc),
      ((holdings.foldl (summaryStep m) acc).allocation_map.lookup t) =
        (match acc.allocation_map.lookup t with
         | some entry =>
             some { entry with value := entry.value + tickerValueSum m t holdings }
         | none =>
             match holdings.filter (fun h => h.ticker == t) with
             | [] => none
             | h₀ :: _ =>
                 some { name := m.assetName t,
                        value := tickerValueSum m t holdings,
                        type_str := h₀.asset_type.value }) := by
  intro holdings
  induction holdings with
  | nil =>
      intro acc
      rw [List.foldl_nil]
      cases hl : acc.allocation_map.lookup t with
      | none => rfl
      | some entry => simp [tickerValueSum]
  | cons h hs ih =>
      intro acc
      rw [List.foldl_cons, ih]
      have hstep : (summaryStep m acc h).allocation_map =
          allocUpdate acc.allocation_map h (m.assetName h.ticker)
            (holdingValuation m h).2 := rfl
      rw [hstep, lookup_allocUpdate]
      by_cases ht : t = h.ticker
      · subst ht
        rw [if_pos rfl]
        have hfilter : (h :: hs).filter (fun x => x.ticker == h.ticker) =
            h :: hs.filter (fun x => x.ticker == h.ticker) := by
          simp [List.filter_cons]
        have hv : tickerValueSum m h.ticker (h :: hs) =
            (holdingValuation m h).2 + tickerValueSum m h.ticker hs := by
          simp [tickerValueSum, hfilter]
        cases hl : acc.allocation_map.lookup h.ticker with
        | some entry =>
            simp only [hl, hv]
            rw [add_assoc]
        | none =>
            simp only [hl, hfilter, hv]
      · rw [if_neg ht]
        have hbt : (h.ticker == t) = false :=
          beq_false_of_ne (fun h2 => ht h2.symm)
        have hfilter : (h :: hs).filter (fun x => x.ticker == t) =
            hs.filter (fun x => x.ticker == t) := by
          simp [List.filter_cons, hbt]
        have hv : tickerValueSum m t (h :: hs) = tickerValueSum m t hs := by
          simp [tickerValueSum, hfilter]
        rw [hv, hfilter]

theorem insertValueDesc_perm (x : AllocationItem) :
    ∀ l : List AllocationItem, (insertValueDesc x l).Perm (x :: l)
  | [] => List.Perm.refl _
  | y :: ys => by
      unfold insertValueDesc
      by_cases hxy : x.value ≤ y.value
      · rw [if_pos hxy]
        exact ((insertValueDesc_perm x ys).cons y).trans (List.Perm.swap x y ys)
      · rw [if_neg hxy]

theorem insertValueDesc_pairwise (x : AllocationItem) :
    ∀ l : List AllocationItem,
      l.Pairwise (fun a b => b.value ≤ a.value) →
      (insertValueDesc x l).Pairwise (fun a b => b.value ≤ a.value)
  | [], _ => by simp [insertValueDesc]
  | y :: ys, hp => by
      rcases List.pairwise_cons.mp hp with ⟨hy, hys⟩
      unfold insertValueDesc
      by_cases hxy : x.value ≤ y.value
      · rw [if_pos hxy]
        refine List.pairwise_cons.mpr ⟨?_, insertValueDesc_pairwise x ys hys⟩
        intro z hz
        rcases List.mem_cons.mp ((insertValueDesc_perm x ys).mem_iff.mp hz) with
          rfl | hzys
        · exact hxy
        · exact hy z hzys
      · rw [if_neg hxy]
        refine List.pairwise_cons.mpr ⟨?_, hp⟩
        intro z hz
        rcases List.mem_cons.mp hz with rfl | hzys
        · exact le_of_lt (not_le.mp hxy)
        · exact le_trans (hy z hzys) (le_of_lt (not_le.mp hxy))

theorem filter_insertValueDesc (x : AllocationItem) (v : ℚ) :
    ∀ l : List AllocationItem,
      l.Pairwise (fun a b => b.value ≤ a.value) →
      (insertValueDesc x l).filter (fun a => a.value == v) =
        (if x.value = v then
          l.filter (fun a => a.value == v) ++ [x]
        else l.filter (fun a => a.value == v))
  | [], _ => by
      by_cases hxv : x.value = v <;>
        simp [insertValueDesc, List.filter_cons, hxv, beq_iff_eq]
  | y :: ys, hp => by
      rcases List.pairwise_cons.mp hp with ⟨hy, hys⟩
      unfold insertValueDesc
      by_cases hxy : x.value ≤ y.value
      · rw [if_pos hxy]
        have ih := filter_insertValueDesc x v ys hys
        cases hyb : (y.value == v) with
        | true =>
            by_cases hxv : x.value = v <;>
              simp [List.filter_cons, hyb, ih, hxv]
        | false =>
            by_cases hxv : x.value = v <;>
              simp [List.filter_cons, hyb, ih, hxv]
      · rw [if_neg hxy]
        have hlt : y.value < x.value := not_le.mp hxy
        by_cases hxv : x.value = v
        · have hnil : (y :: ys).filter (fun a => a.value == v) = [] := by
            rw [List.filter_eq_nil_iff]
            intro a ha
            rcases List.mem_cons.mp ha with rfl | hays
            · simp only [beq_iff_eq]
              intro hc
              rw [hc, ← hxv] at hlt
              exact absurd hlt (lt_irrefl _)
            · have hle := hy a hays
              simp only [beq_iff_eq]
              intro hc
              rw [hc, ← hxv] at hle
              have : x.value < x.value := lt_of_le_of_lt hle hlt
              exact absurd this (lt_irrefl _)
          simp [List.filter_cons, hxv, hnil, beq_iff_eq]
        · simp [List.filter_cons, hxv, beq_iff_eq]

theorem foldl_insert_pairwise :
    ∀ (l acc : List AllocationItem),
      acc.Pairwise (fun a b => b.value ≤ a.value) →
      (l.foldl (fun a x => insertValueDesc x a) acc).Pairwise
        (fun a b => b.value ≤ a.value)
  | [], acc, h => h
  | x :: l, acc, h =>
      foldl_insert_pairwise l (insertValueDesc x acc)
        (insertValueDesc_pairwise x acc h)

theorem foldl_insert_perm :
    ∀ (l acc : List AllocationItem),
      (l.foldl (fun a x => insertValueDesc x a) acc).Perm (acc ++ l)
  | [], acc => by simp
  | x :: l, acc => by
      rw [List.foldl_cons]
      refine (foldl_insert_perm l (insertValueDesc x acc)).trans ?_
      refine (((insertValueDesc_perm x acc).append_right l)).trans ?_
      exact List.perm_middle.symm

theorem foldl_insert_filter (v : ℚ) :
    ∀ (l acc : List AllocationItem),
      acc.Pairwise (fun a b => b.value ≤ a.value) →
      (l.foldl (fun a x => insertValueDesc x a) acc).filter
          (fun a => a.value == v) =
        acc.filter (fun a => a.value == v) ++ l.filter (fun a => a.value == v)
  | [], acc, h => by simp
  | x :: l, acc, h => by
      rw [List.foldl_cons,
        foldl_insert_filter v l (insertValueDesc x acc)
          (insertValueDesc_pairwise x acc h),
        filter_insertValueDesc x v acc h]
      by_cases hxv : x.value = v
      · simp [List.filter_cons, hxv, beq_iff_eq]
      · simp [List.filter_cons, hxv, beq_iff_eq]

theorem sortValueDesc_pairwise (l : List AllocationItem) :
    (sortValueDesc l).Pairwise (fun a b => b.value ≤ a.value) :=
  foldl_insert_pairwise l [] (List.Pairwise.nil)

theorem sortValueDesc_perm (l : List AllocationItem) : (sortValueDesc l).Perm l :=
  foldl_insert_perm l []

theorem sortValueDesc_filter (l : List AllocationItem) (v : ℚ) :
    (sortValueDesc l).filter (fun a => a.value == v) =
      l.filter (fun a => a.value == v) := by
  have := foldl_insert_filter v l [] (List.Pairwise.nil)
  simpa [sortValueDesc] using this

theorem compute_allocation_eq (m : MarketOracle) (holdings : List Holding) :
    (compute_portfolio_summary m holdings).allocation =
      sortValueDesc (((holdings.foldl (summaryStep m)
        { total_current_value := 0, total_initial_investment := 0,
          calculated_holdings := [], allocation_map := [] }).allocation_map).map
            (fun p => p.2)) := rfl

theorem compute_total_eq (m : MarketOracle) (holdings : List Holding) :
    (compute_portfolio_summary m holdings).total_current_value =
      (holdings.foldl (summaryStep m)
        { total_current_value := 0, total_initial_investment := 0,
          calculated_holdings := [], allocation_map := [] }).total_current_value := rfl

/-- C5: the allocation of `compute_portfolio_summary` groups current value
by ticker — the allocation dict has pairwise-distinct ticker keys, and maps
a ticker `t` to an entry exactly when some holding carries `t`, with value
the sum of the current values of the holdings on `t` (name and type from
the first such holding); the emitted allocation list is that dict's values
sorted descending by value, ties kept in dict (insertion) order — for any
value `v` the `v`-valued entries appear in exactly their dict order; and
the values of the allocation sum exactly to `total_current_value`. -/
theorem C5_allocation_grouping_sorted_sum (m : MarketOracle)
    (holdings : List Holding) (t : String) (v : ℚ) :
    ((holdings.foldl (summaryStep m)
        { total_current_value := 0, total_initial_investment := 0,
          calculated_holdings := [], allocation_map := [] }).allocation_map.lookup t
      = (match holdings.filter (fun h => h.ticker == t) with
         | [] => none
         | h₀ :: _ =>
             some { name := m.assetName t,
                    value := tickerValueSum m t holdings,
                    type_str := h₀.asset_type.value })) ∧
    (allocKeys (holdings.foldl (summaryStep m)
        { total_current_value := 0, total_initial_investment := 0,
          calculated_holdings := [], allocation_map := [] }).allocation_map).Nodup ∧
    (compute_portfolio_summary m holdings).allocation.Pairwise
      (fun a b => b.value ≤ a.value) ∧
    ((compute_portfolio_summary m holdings).allocation.filter
        (fun a => a.value == v) =
      (((holdings.foldl (summaryStep m)
        { total_current_value := 0, total_initial_investment := 0,
          calculated_holdings := [], allocation_map := [] }).allocation_map).map
            (fun p => p.2)).filter (fun a => a.value == v)) ∧
    (((compute_portfolio_summary m holdings).allocation.map
        (fun a => a.value)).sum =
      (compute_portfolio_summary m holdings).total_current_value) := by
  refine ⟨?_, ?_, ?_, ?_, ?_⟩
  · rw [alloc_lookup_fold]
    rfl
  · exact summary_fold_keys_nodup m holdings _ (by simp [allocKeys])
  · rw [compute_allocation_eq]
    exact sortValueDesc_pairwise _
  · rw [compute_allocation_eq]
    exact sortValueDesc_filter _ v
  · rw [compute_allocation_eq, compute_total_eq]
    have h1 : ((sortValueDesc (((holdings.foldl (summaryStep m)
        { total_current_value := 0, total_initial_investment := 0,
          calculated_holdings := [], allocation_map := [] }).allocation_map).map
            (fun p => p.2))).map (fun a => a.value)).sum =
        allocSum (holdings.foldl (summaryStep m)
        { total_current_value := 0, total_initial_investment := 0,
          calculated_holdings := [], allocation_map := [] }).allocation_map := by
      rw [List.Perm.sum_eq ((sortValueDesc_perm _).map _), List.map_map]
      rfl
    rw [h1, summary_fold_allocSum m holdings
      { total_current_value := 0, total_initial_investment := 0,
        calculated_holdings := [], allocation_map := [] },
      summary_fold_total m holdings
      { total_current_value := 0, total_initial_investment := 0,
        calculated_holdings := [], allocation_map := [] }]
    simp [allocSum]

/-! ## C7 -/

/-- The `holding_histories[h.id]` record built for a holding. -/
def mkHist (histFor : Holding → List (ℤ × ℚ)) (h : Holding) : HoldingHistory :=
  { prices := histFor h, base_price := firstAvailablePrice (histFor h) }

/-- The fresh (same-day) contribution of a holding on day `d`: defined when
the holding's base price is truthy, it was purchased on or before `d`, and
its series has a truthy price for exactly day `d`; then it is
`starting_price * (price_d / base)`. -/
def freshContrib (histFor : Holding → List (ℤ × ℚ)) (h : Holding) (d : ℤ) :
    Option ℚ :=
  match truthyQ (firstAvailablePrice (histFor h)) with
  | none => none
  | some b =>
      if h.purchase_date ≤ d then
        (truthyQ ((histFor h).lookup d)).map (fun p => h.starting_price * (p / b))
      else none

/-- The contribution of a holding on day `d` given the recorded
`last_known_val` `sv`: the fresh value when the day's price is truthy,
otherwise the recorded value — but only for a holding purchased on or
before `d` whose base price is truthy. -/
def stepContrib (histFor : Holding → List (ℤ × ℚ)) (h : Holding) (d : ℤ)
    (sv : Option ℚ) : Option ℚ :=
  match truthyQ (firstAvailablePrice (histFor h)) with
  | none => none
  | some b =>
      if h.purchase_date ≤ d then
        match truthyQ ((histFor h).lookup d) with
        | some p => some (h.starting_price * (p / b))
        | none => sv
      else none

/-- The update day `d` makes to the `last_known_val` table for one holding:
record the fresh value on a fresh day, else leave the table alone. -/
def stepUpdate (histFor : Holding → List (ℤ × ℚ)) (h : Holding) (d : ℤ)
    (S : List (String × ℚ)) : List (String × ℚ) :=
  match truthyQ (firstAvailablePrice (histFor h)) with
  | none => S
  | some b =>
      if h.purchase_date ≤ d then
        match truthyQ ((histFor h).lookup d) with
        | some p => dictInsertS S h.id (h.starting_price * (p / b))
        | none => S
      else S

/-- The holding's last computed value over the days `start .. upTo`: the
fresh value of its last fresh day in that range, if any. -/
def fillValue (histFor : Holding → List (ℤ × ℚ)) (start : ℤ) (h : Holding)
    (upTo : ℤ) : Option ℚ :=
  match truthyQ (firstAvailablePrice (histFor h)) with
  | none => none
  | some b =>
      (((dateRange start upTo).filter
          (fun e => decide (h.purchase_date ≤ e) &&
            (truthyQ ((histFor h).lookup e)).isSome)).getLast?).map
        (fun e => h.starting_price * (((truthyQ ((histFor h).lookup e)).getD 0) / b))

/-- The claim's per-day contribution of a holding, written from the spec's
words: a holding purchased on or before the day with a truthy base price
contributes the fresh value when the exact day's price is truthy, and
otherwise forward-fills its last computed value, provided it has one. -/
def declContrib (histFor : Holding → List (ℤ × ℚ)) (start : ℤ) (h : Holding)
    (d : ℤ) : Option ℚ :=
  stepContrib histFor h d (fillValue histFor start h (d - 1))

theorem dateRange_nil {s e : ℤ} (h : e < s) : dateRange s e = [] := by
  unfold dateRange
  have : (e + 1 - s).toNat = 0 := by omega
  rw [this]
  rfl

theorem dateRange_cons {c e : ℤ} (h : c ≤ e) :
    dateRange c e = c :: dateRange (c + 1) e := by
  unfold dateRange
  have hn : (e + 1 - c).toNat = (e + 1 - (c + 1)).toNat + 1 := by omega
  rw [hn, List.range_succ_eq_map, List.map_cons, List.map_map]
  congr 1
  · omega
  · apply List.map_congr_left
    intro i _
    simp only [Function.comp_apply, Nat.succ_eq_add_one]
    push_cast
    ring

theorem dateRange_concat {s d : ℤ} (h : s ≤ d) :
    dateRange s d = dateRange s (d - 1) ++ [d] := by
  unfold dateRange
  have hn : (d + 1 - s).toNat = (d - 1 + 1 - s).toNat + 1 := by omega
  rw [hn, List.range_succ, List.map_append, List.map_cons, List.map_nil]
  congr 2
  omega

theorem fillValue_before_start (histFor : Holding → List (ℤ × ℚ)) (start : ℤ)
    (h : Holding) (upTo : ℤ) (hlt : upTo < start) :
    fillValue histFor start h upTo = none := by
  unfold fillValue
  cases truthyQ (firstAvailablePrice (histFor h)) with
  | none => rfl
  | some b => rw [dateRange_nil hlt]; rfl

theorem fillValue_succ (histFor : Holding → List (ℤ × ℚ)) (start : ℤ)
    (h : Holding) (d : ℤ) (hsd : start ≤ d) :
    fillValue histFor start h d =
      (freshContrib histFor h d).or (fillValue histFor start h (d - 1)) := by
  unfold fillValue freshContrib
  cases truthyQ (firstAvailablePrice (histFor h)) with
  | none => rfl
  | some b =>
      rw [dateRange_concat hsd, List.filter_append]
      by_cases hp : h.purchase_date ≤ d
      · cases htr : truthyQ ((histFor h).lookup d) with
        | some p =>
            have hrest : (List.filter (fun e => decide (h.purchase_date ≤ e) &&
                (truthyQ ((histFor h).lookup e)).isSome) [d]) = [d] := by
              simp [List.filter_cons, hp, htr]
            rw [hrest, List.getLast?_append]
            simp [htr, hp]
        | none =>
            have hrest : (List.filter (fun e => decide (h.purchase_date ≤ e) &&
                (truthyQ ((histFor h).lookup e)).isSome) [d]) = [] := by
              simp [List.filter_cons, hp, htr]
            rw [hrest, List.append_nil]
            simp [htr, hp]
      · have hrest : (List.filter (fun e => decide (h.purchase_date ≤ e) &&
            (truthyQ ((histFor h).lookup e)).isSome) [d]) = [] := by
          simp [List.filter_cons, hp]
        rw [hrest, List.append_nil]
        simp [hp]

theorem stepUpdate_lookup_self (histFor : Holding → List (ℤ × ℚ)) (h : Holding)
    (d : ℤ) (S : List (String × ℚ)) :
    (stepUpdate histFor h d S).lookup h.id =
      (freshContrib histFor h d).or (S.lookup h.id) := by
  unfold stepUpdate freshContrib
  cases truthyQ (firstAvailablePrice (histFor h)) with
  | none => rfl
  | some b =>
      by_cases hp : h.purchase_date ≤ d
      · cases htr : truthyQ ((histFor h).lookup d) with
        | some p => simp [hp, htr, lookup_dictInsertS]
        | none => simp [hp, htr]
      · simp [hp]

theorem stepUpdate_lookup_other (histFor : Holding → List (ℤ × ℚ)) (h : Holding)
    (d : ℤ) (S : List (String × ℚ)) (k : String) (hk : k ≠ h.id) :
    (stepUpdate histFor h d S).lookup k = S.lookup k := by
  unfold stepUpdate
  cases truthyQ (firstAvailablePrice (histFor h)) with
  | none => rfl
  | some b =>
      by_cases hp : h.purchase_date ≤ d
      · cases htr : truthyQ ((histFor h).lookup d) with
        | some p => simp [hp, htr, lookup_dictInsertS, hk]
        | none => simp [hp, htr]
      · simp [hp]

theorem stateFold_stable (histFor : Holding → List (ℤ × ℚ)) (d : ℤ) :
    ∀ (gs : List Holding) (S : List (String × ℚ)) (k : String),
      (∀ g ∈ gs, g.id ≠ k) →
      ((gs.foldl (fun S g => stepUpdate histFor g d S) S).lookup k) = S.lookup k
  | [], S, k, _ => rfl
  | g :: gs, S, k, hne => by
      rw [List.foldl_cons,
        stateFold_stable histFor d gs _ k (fun g2 hg2 => hne g2 (List.mem_cons_of_mem _ hg2)),
        stepUpdate_lookup_other histFor g d S k
          (fun hc => hne g (List.mem_cons_self _ _) hc.symm)]

theorem stateFold_lookup (histFor : Holding → List (ℤ × ℚ)) (d : ℤ) :
    ∀ (holdings : List Holding) (S : List (String × ℚ)) (h : Holding),
      ((holdings.map (fun x => x.id)).Nodup) → h ∈ holdings →
      ((holdings.foldl (fun S g => stepUpdate histFor g d S) S).lookup h.id) =
        (freshContrib histFor h d).or (S.lookup h.id)
  | [], _, h, _, hmem => absurd hmem (List.not_mem_nil h)
  | g :: gs, S, h, hnd, hmem => by
      rw [List.map_cons, List.nodup_cons] at hnd
      rcases List.mem_cons.mp hmem with rfl | hgs
      · rw [List.foldl_cons,
          stateFold_stable histFor d gs _ h.id
            (fun g2 hg2 hc => hnd.1 (hc ▸ List.mem_map_of_mem (fun x => x.id) hg2)),
          stepUpdate_lookup_self]
      · rw [List.foldl_cons,
          stateFold_lookup histFor d gs _ h hnd.2 hgs,
          stepUpdate_lookup_other histFor g d S h.id
            (fun hc => hnd.1 (hc ▸ List.mem_map_of_mem (fun x => x.id) hgs))]

theorem buildHistories_stable (histFor : Holding → List (ℤ × ℚ)) :
    ∀ (gs : List Holding) (acc : List (String × HoldingHistory)) (k : String),
      (∀ g ∈ gs, g.id ≠ k) →
      ((gs.foldl (fun acc h =>
          dictInsertS acc h.id
            { prices := histFor h,
              base_price := firstAvailablePrice (histFor h) }) acc).lookup k) =
        acc.lookup k
  | [], _, _, _ => rfl
  | g :: gs, acc, k, hne => by
      rw [List.foldl_cons,
        buildHistories_stable histFor gs _ k
          (fun g2 hg2 => hne g2 (List.mem_cons_of_mem _ hg2)),
        lookup_dictInsertS,
        if_neg (fun hc => hne g (List.mem_cons_self _ _) hc.symm)]

theorem buildHistories_lookup (histFor : Holding → List (ℤ × ℚ)) :
    ∀ (holdings : List Holding) (acc : List (String × HoldingHistory))
      (h : Holding),
      ((holdings.map (fun x => x.id)).Nodup) → h ∈ holdings →
      ((holdings.foldl (fun acc h =>
          dictInsertS acc h.id
            { prices := histFor h,
              base_price := firstAvailablePrice (histFor h) }) acc).lookup h.id) =
        some (mkHist histFor h)
  | [], _, h, _, hmem => absurd hmem (List.not_mem_nil h)
  | g :: gs, acc, h, hnd, hmem => by
      rw [List.map_cons, List.nodup_cons] at hnd
      rcases List.mem_cons.mp hmem with rfl | hgs
      · rw [List.foldl_cons,
          buildHistories_stable histFor gs _ h.id
            (fun g2 hg2 hc => hnd.1 (hc ▸ List.mem_map_of_mem (fun x => x.id) hg2)),
          lookup_dictInsertS, if_pos rfl]
        rfl
      · exact buildHistories_lookup histFor gs _ h hnd.2 hgs

theorem mem_buildHistories_lookup (histFor : Holding → List (ℤ × ℚ))
    (holdings : List Holding) (h : Holding)
    (hnd : ((holdings.map (fun x => x.id)).Nodup)) (hmem : h ∈ holdings) :
    (buildHistories histFor holdings).lookup h.id = some (mkHist histFor h) :=
  buildHistories_lookup histFor holdings [] h hnd hmem

theorem dayHoldingStep_char (histFor : Holding → List (ℤ × ℚ))
    (hh : List (String × HoldingHistory)) (d : ℤ) (acc : DayAcc) (h : Holding)
    (hhl : hh.lookup h.id = some (mkHist histFor h)) :
    dayHoldingStep hh d acc h =
      { daily_total_value := acc.daily_total_value +
          (stepContrib histFor h d (acc.lastKnown.lookup h.id)).getD 0
        has_data := acc.has_data ||
          (stepContrib histFor h d (acc.lastKnown.lookup h.id)).isSome
        lastKnown := stepUpdate histFor h d acc.lastKnown } := by
  unfold dayHoldingStep stepContrib stepUpdate
  rw [hhl]
  by_cases hp : h.purchase_date ≤ d
  · simp only [if_pos hp, mkHist]
    cases hb : truthyQ (firstAvailablePrice (histFor h)) with
    | none => simp
    | some b =>
        cases htr : truthyQ ((histFor h).lookup d) with
        | some p => simp
        | none =>
            cases hsv : acc.lastKnown.lookup h.id with
            | some lv => simp [hsv]
            | none => simp [hsv]
  · simp only [if_neg hp]
    cases hb : truthyQ (firstAvailablePrice (histFor h)) with
    | none => simp
    | some b => simp

theorem list_any_congr {α : Type} (p q : α → Bool) :
    ∀ l : List α, (∀ a ∈ l, p a = q a) → l.any p = l.any q
  | [], _ => rfl
  | a :: l, h => by
      simp only [List.any_cons, h a (List.mem_cons_self _ _),
        list_any_congr p q l (fun b hb => h b (List.mem_cons_of_mem _ hb))]

theorem dayFold_char (histFor : Holding → List (ℤ × ℚ))
    (hh : List (String × HoldingHistory)) (d : ℤ) :
    ∀ (holdings : List Holding) (acc : DayAcc),
      ((holdings.map (fun x => x.id)).Nodup) →
      (∀ h ∈ holdings, hh.lookup h.id = some (mkHist histFor h)) →
      holdings.foldl (dayHoldingStep hh d) acc =
        { daily_total_value := acc.daily_total_value +
            (holdings.map (fun h =>
              (stepContrib histFor h d (acc.lastKnown.lookup h.id)).getD 0)).sum
          has_data := acc.has_data ||
            holdings.any (fun h =>
              (stepContrib histFor h d (acc.lastKnown.lookup h.id)).isSome)
          lastKnown :=
            holdings.foldl (fun S g => stepUpdate histFor g d S) acc.lastKnown }
  | [], acc, _, _ => by simp
  | g :: gs, acc, hnd, hcorr => by
      rw [List.map_cons, List.nodup_cons] at hnd
      rw [List.foldl_cons,
        dayHoldingStep_char histFor hh d acc g (hcorr g (List.mem_cons_self _ _)),
        dayFold_char histFor hh d gs _ hnd.2
          (fun h hm => hcorr h (List.mem_cons_of_mem _ hm))]
      have hstable : ∀ h ∈ gs,
          ((stepUpdate histFor g d acc.lastKnown).lookup h.id) =
            acc.lastKnown.lookup h.id := by
        intro h hm
        exact stepUpdate_lookup_other histFor g d acc.lastKnown h.id
          (fun hc => hnd.1 (hc ▸ List.mem_map_of_mem (fun x => x.id) hm))
      have hmapeq : gs.map (fun h =>
            (stepContrib histFor h d
              ((stepUpdate histFor g d acc.lastKnown).lookup h.id)).getD 0) =
          gs.map (fun h =>
            (stepContrib histFor h d (acc.lastKnown.lookup h.id)).getD 0) := by
        apply List.map_congr_left
        intro h hm
        rw [hstable h hm]
      have hanyeq : gs.any (fun h =>
            (stepContrib histFor h d
              ((stepUpdate histFor g d acc.lastKnown).lookup h.id)).isSome) =
          gs.any (fun h =>
            (stepContrib histFor h d (acc.lastKnown.lookup h.id)).isSome) := by
        apply list_any_congr
        intro h hm
        rw [hstable h hm]
      rw [hmapeq, hanyeq]
      simp only [List.map_cons, List.sum_cons, List.any_cons]
      congr 1
      · ring
      · rw [Bool.or_assoc]

/-- The point the claim predicts for one calendar day: emitted exactly when
some holding contributes (fresh or forward-filled), with the day's total the
sum of the per-holding contributions. -/
def specPoint (histFor : Holding → List (ℤ × ℚ)) (start : ℤ)
    (holdings : List Holding) (initial : ℚ) (d : ℤ) : Option HistoryPoint :=
  if holdings.any (fun h => (declContrib histFor start h d).isSome) then
    some { date := d
           value := round2 ((holdings.map
             (fun h => (declContrib histFor start h d).getD 0)).sum)
           percentage_change := round2
             (if initial > 0 then
               (((holdings.map (fun h => (declContrib histFor start h d).getD 0)).sum
                  - initial) / initial) * 100
             else 0) }
  else none

theorem historyLoop_cons (holdings : List Holding)
    (hh : List (String × HoldingHistory)) (initial : ℚ) (d : ℤ) (rest : List ℤ)
    (lastKnown : List (String × ℚ)) :
    historyLoop holdings hh initial (d :: rest) lastKnown =
      (let acc := holdings.foldl (dayHoldingStep hh d)
        { daily_total_value := 0, has_data := false, lastKnown := lastKnown }
       let tail := historyLoop holdings hh initial rest acc.lastKnown
       if acc.has_data then
        { date := d
          value := round2 acc.daily_total_value
          percentage_change := round2
            (if initial > 0 then
              ((acc.daily_total_value - initial) / initial) * 100
            else 0) } :: tail
       else tail) := rfl

theorem historyLoop_char (histFor : Holding → List (ℤ × ℚ))
    (holdings : List Holding) (start end_date : ℤ) (initial : ℚ)
    (hnd : ((holdings.map (fun x => x.id)).Nodup)) :
    ∀ (n : ℕ) (c : ℤ) (S : List (String × ℚ)),
      (end_date + 1 - c).toNat = n → start ≤ c →
      (∀ h ∈ holdings, S.lookup h.id = fillValue histFor start h (c - 1)) →
      historyLoop holdings (buildHistories histFor holdings) initial
          (dateRange c end_date) S =
        (dateRange c end_date).filterMap
          (specPoint histFor start holdings initial) := by
  intro n
  induction n with
  | zero =>
      intro c S hn _ _
      have hce : end_date < c := by omega
      rw [dateRange_nil hce]
      rfl
  | succ n ih =>
      intro c S hn hsc hinv
      have hce : c ≤ end_date := by omega
      rw [dateRange_cons hce, historyLoop_cons, List.filterMap_cons]
      have hcorr : ∀ h ∈ holdings,
          (buildHistories histFor holdings).lookup h.id =
            some (mkHist histFor h) :=
        fun h hm => mem_buildHistories_lookup histFor holdings h hnd hm
      rw [dayFold_char histFor (buildHistories histFor holdings) c holdings
        { daily_total_value := 0, has_data := false, lastKnown := S } hnd hcorr]
      have hcontrib : ∀ h ∈ holdings,
          stepContrib histFor h c (S.lookup h.id) = declContrib histFor start h c := by
        intro h hm
        rw [hinv h hm]
        rfl
      have hmapeq : holdings.map (fun h =>
            (stepContrib histFor h c (S.lookup h.id)).getD 0) =
          holdings.map (fun h => (declContrib histFor start h c).getD 0) := by
        apply List.map_congr_left
        intro h hm
        rw [hcontrib h hm]
      have hanyeq : holdings.any (fun h =>
            (stepContrib histFor h c (S.lookup h.id)).isSome) =
          holdings.any (fun h => (declContrib histFor start h c).isSome) := by
        apply list_any_congr
        intro h hm
        rw [hcontrib h hm]
      have hinv2 : ∀ h ∈ holdings,
          ((holdings.foldl (fun S g => stepUpdate histFor g c S) S).lookup h.id) =
            fillValue histFor start h (c + 1 - 1) := by
        intro h hm
        rw [stateFold_lookup histFor c holdings S h hnd hm, hinv h hm]
        have : c + 1 - 1 = c := by ring
        rw [this, fillValue_succ histFor start h c hsc]
      have htail := ih (c + 1)
        (holdings.foldl (fun S g => stepUpdate histFor g c S) S)
        (by omega) (by omega) hinv2
      simp only
      rw [htail, hmapeq, hanyeq]
      unfold specPoint
      cases hany : holdings.any (fun h => (declContrib histFor start h c).isSome) with
      | false => simp
      | true => simp [zero_add]

theorem specPoint_date (histFor : Holding → List (ℤ × ℚ)) (start : ℤ)
    (holdings : List Holding) (initial : ℚ) (d : ℤ) (pt : HistoryPoint)
    (hpt : specPoint histFor start holdings initial d = some pt) :
    pt.date = d := by
  unfold specPoint at hpt
  by_cases hany : holdings.any (fun h => (declContrib histFor start h d).isSome)
  · rw [if_pos hany] at hpt
    cases hpt
    rfl
  · rw [if_neg hany] at hpt
    exact absurd hpt (by simp)

theorem filterMap_date_mem (F : ℤ → Option HistoryPoint)
    (hF : ∀ d pt, F d = some pt → pt.date = d) (days : List ℤ) (d : ℤ) :
    (d ∈ (days.filterMap F).map (fun pt => pt.date) ↔
      d ∈ days ∧ (F d).isSome) := by
  constructor
  · intro hmem
    rcases List.mem_map.mp hmem with ⟨pt, hpt, hdate⟩
    rcases List.mem_filterMap.mp hpt with ⟨a, ha, hFa⟩
    have := hF a pt hFa
    have had : a = d := by rw [← hdate, this]
    subst had
    exact ⟨ha, by simp [hFa]⟩
  · rintro ⟨hd, hsome⟩
    rcases Option.isSome_iff_exists.mp hsome with ⟨pt, hpt⟩
    exact List.mem_map.mpr ⟨pt, List.mem_filterMap.mpr ⟨d, hd, hpt⟩, hF d pt hpt⟩

theorem filterMap_date_filter (F : ℤ → Option HistoryPoint)
    (hF : ∀ d pt, F d = some pt → pt.date = d) (d : ℤ) :
    ∀ days : List ℤ, days.Nodup →
      ((days.filterMap F).filter (fun pt => pt.date == d)).head? =
        if d ∈ days then F d else none
  | [], _ => by simp
  | a :: days, hnd => by
      rw [List.nodup_cons] at hnd
      rw [List.filterMap_cons]
      cases hFa : F a with
      | none =>
          rw [filterMap_date_filter F hF d days hnd.2]
          by_cases had : d = a
          · subst had
            simp only [List.mem_cons, true_or, if_pos, hFa]
            by_cases hdd : d ∈ days
            · simp [hdd, hFa]
            · simp [hdd]
          · simp [List.mem_cons, had]
      | some pt =>
          have hdate := hF a pt hFa
          rw [List.filter_cons]
          by_cases had : d = a
          · subst had
            have hbt : (pt.date == d) = true := beq_iff_eq.mpr hdate
            rw [hbt]
            simp only [List.head?_cons, List.mem_cons, true_or, if_pos]
            rw [hFa]
          · have hbt : (pt.date == d) = false :=
              beq_false_of_ne (by rw [hdate]; exact fun h => had h.symm)
            rw [hbt]
            simp only [Bool.false_eq_true, if_false]
            rw [filterMap_date_filter F hF d days hnd.2]
            simp [List.mem_cons, had]

theorem dateRange_nodup (s e : ℤ) : (dateRange s e).Nodup :=
  (dateRange_sorted s e).nodup

theorem get_portfolio_history_cons (histFor : Holding → List (ℤ × ℚ))
    (end_date : ℤ) (h0 : Holding) (hs : List Holding) :
    get_portfolio_history histFor end_date (h0 :: hs) =
      historyLoop (h0 :: hs) (buildHistories histFor (h0 :: hs))
        (((h0 :: hs).map (fun h => h.starting_price)).sum)
        (dateRange (hs.foldl (fun a h => min a h.purchase_date) h0.purchase_date)
          end_date) [] := rfl

/-- C7: in the daily series of `get_portfolio_history`, a calendar day `d`
of the iterated range is emitted iff at least one holding contributes a
value for it — a holding purchased on or before `d`, with a truthy base
price, whose series either has a truthy price for exactly day `d` (fresh
value) or has a previously computed value to forward-fill; and the emitted
point for `d` carries exactly the rounded sum of those per-holding
contributions, each missing-price holding contributing its last computed
value rather than being dropped. -/
theorem C7_daily_emission_and_forward_fill
    (histFor : Holding → List (ℤ × ℚ)) (end_date : ℤ) (h0 : Holding)
    (hs : List Holding)
    (hnd : (((h0 :: hs).map (fun h => h.id)).Nodup)) (d : ℤ) :
    (d ∈ (get_portfolio_history histFor end_date (h0 :: hs)).map
        (fun pt => pt.date) ↔
      (d ∈ dateRange
          (hs.foldl (fun a h => min a h.purchase_date) h0.purchase_date)
          end_date ∧
       ∃ h ∈ h0 :: hs, (declContrib histFor
         (hs.foldl (fun a h => min a h.purchase_date) h0.purchase_date)
         h d).isSome)) ∧
    (((get_portfolio_history histFor end_date (h0 :: hs)).filter
        (fun pt => pt.date == d)).head? =
      if d ∈ dateRange
          (hs.foldl (fun a h => min a h.purchase_date) h0.purchase_date)
          end_date then
        specPoint histFor
          (hs.foldl (fun a h => min a h.purchase_date) h0.purchase_date)
          (h0 :: hs) (((h0 :: hs).map (fun h => h.starting_price)).sum) d
      else none) := by
  have hloop := historyLoop_char histFor (h0 :: hs)
    (hs.foldl (fun a h => min a h.purchase_date) h0.purchase_date) end_date
    (((h0 :: hs).map (fun h => h.starting_price)).sum) hnd
    ((end_date + 1 -
      (hs.foldl (fun a h => min a h.purchase_date) h0.purchase_date)).toNat)
    (hs.foldl (fun a h => min a h.purchase_date) h0.purchase_date) [] rfl
    (le_refl _)
    (fun h _ => by
      rw [fillValue_before_start histFor _ h _ (by omega)]
      rfl)
  rw [get_portfolio_history_cons, hloop]
  constructor
  · rw [filterMap_date_mem _ (specPoint_date histFor _ _ _)]
    constructor
    · rintro ⟨hd, hsome⟩
      refine ⟨hd, ?_⟩
      unfold specPoint at hsome
      by_cases hany : (h0 :: hs).any (fun h => (declContrib histFor
          (hs.foldl (fun a h => min a h.purchase_date) h0.purchase_date)
          h d).isSome)
      · exact List.any_eq_true.mp hany
      · rw [if_neg hany] at hsome
        simp at hsome
    · rintro ⟨hd, hex⟩
      refine ⟨hd, ?_⟩
      unfold specPoint
      rw [if_pos (List.any_eq_true.mpr hex)]
      rfl
  · rw [filterMap_date_filter _ (specPoint_date histFor _ _ _) d _
      (dateRange_nodup _ _)]

/-- A holding purchased at day 0 with cost 100. -/
def holdC : Holding :=
  { id := "h1", portfolio_id := "p1", ticker := "T", starting_price := 100,
    purchase_date := 0, asset_type := AssetType.stock,
    trade_type := TradeType.buy, last_updated := 0 }

/-- A price series with day 1 missing: 10 at day 0, 20 at day 2. -/
def histEx : Holding → List (ℤ × ℚ) := fun _ => [(0, 10), (2, 20)]

/-- Witness for C7: with prices only at days 0 and 2, day 1 is still emitted
— the holding forward-fills its day-0 value 100 — and the emitted point for
day 1 is exactly `(1, 100, 0%)`. -/
theorem C7_daily_emission_and_forward_fill_witness :
    (([holdC].map (fun h => h.id)).Nodup) ∧
    (1 ∈ (get_portfolio_history histEx 2 [holdC]).map (fun pt => pt.date)) ∧
    (((get_portfolio_history histEx 2 [holdC]).filter
        (fun pt => pt.date == 1)).head? =
      some { date := 1, value := 100, percentage_change := 0 }) := by
  have h := C7_daily_emission_and_forward_fill histEx 2 holdC [] (by decide) 1
  refine ⟨by decide, ?_, ?_⟩
  · apply h.1.mpr
    refine ⟨by decide, holdC, List.mem_cons_self _ _, by decide⟩
  · rw [h.2, show List.foldl (fun a h => a ⊓ h.purchase_date)
      holdC.purchase_date ([] : List Holding) = 0 from rfl]
    rw [if_pos (by decide : (1:ℤ) ∈ dateRange 0 2)]
    unfold specPoint
    rw [if_pos (by decide)]
    have hc : declContrib histEx 0 holdC 1 = some 100 := by
      unfold declContrib stepContrib fillValue truthyQ firstAvailablePrice
        minKey histEx holdC
      norm_num [dateRange, List.lookup_cons, List.filter_cons, List.range_succ,
        List.reverseAux]
      have h10 : ((1:ℤ) == 0) = false := by decide
      have h12 : ((1:ℤ) == 2) = false := by decide
      simp [h10, h12]
    have hsp : holdC.starting_price = 100 := rfl
    simp only [List.map_cons, List.map_nil, List.sum_cons, List.sum_nil, hc,
      hsp, Option.getD_some]
    norm_num [round2, roundHalfEven, Int.fract]
